import Mathlib

/-! Verification development for the audio engine of the
Audio-Spectrum-Visualizer repository: shallow embeddings of the FFT
(`src/fft.cpp`), the 5-band parametric equalizer (`src/eq_processor.hpp`),
the VST persisted-state serialization (`vst/plugin_processor.cpp`) and the
analyzer band mapping and peak tracking (`src/audio_analyzer.cpp`),
together with theorems settling the specified properties.

Machine `double` arithmetic is embedded as exact real (or complex)
arithmetic; `size_t` and `int` become `ℕ` and `ℤ`.  Arrays of complex
numbers are embedded as functions `ℕ → ℂ` together with an explicit
length, so that the in-place loops of the C++ become explicit
state-passing recursions. -/

namespace fft

/-- Model of `fft::isPowerOf2`: `n > 0 && (n & (n - 1)) == 0`. -/
def isPowerOf2 (n : ℕ) : Bool :=
  decide (0 < n) && (n &&& (n - 1) == 0)

/-- Model of `fft::nextPowerOf2`: bit-smearing cascade.  The C++ operates on
64-bit `size_t`; for `n ≤ 2^63` (every length a real vector can have) the
unbounded-ℕ computation below agrees with the machine computation. -/
def nextPowerOf2 (n : ℕ) : ℕ :=
  if n = 0 then 1 else
  let m1 := n - 1
  let m2 := m1 ||| (m1 >>> 1)
  let m3 := m2 ||| (m2 >>> 2)
  let m4 := m3 ||| (m3 >>> 4)
  let m5 := m4 ||| (m4 >>> 8)
  let m6 := m5 ||| (m5 >>> 16)
  let m7 := m6 ||| (m6 >>> 32)
  m7 + 1

/-- Swap of two array entries (`std::swap(data[i], data[j])`). -/
def swapIdx (a : ℕ → ℂ) (i j : ℕ) : ℕ → ℂ :=
  Function.update (Function.update a i (a j)) j (a i)

/-- Model of the inner `while (k <= j) { j -= k; k >>= 1; } j += k;` of
`bitReversePermute` (the reversed-order binary increment of `j`).  When
`k = 0` and `k ≤ j` the C++ loop would not terminate; that state is
unreachable from the callers below, and the model returns `j` there. -/
def bitrevStep (k j : ℕ) : ℕ :=
  if k ≤ j then
    if h : k = 0 then j
    else bitrevStep (k / 2) (j - k)
  else j + k
termination_by k
decreasing_by exact Nat.div_lt_self (Nat.pos_of_ne_zero h) one_lt_two

/-- Model of the `for (i = 0; i < n - 1; ++i)` loop of `bitReversePermute`;
the first argument counts the remaining iterations. -/
def bitrevLoop (n : ℕ) : ℕ → ℕ → ℕ → (ℕ → ℂ) → (ℕ → ℂ)
  | 0, _, _, a => a
  | steps + 1, i, j, a =>
    bitrevLoop n steps (i + 1) (bitrevStep (n / 2) j)
      (if i < j then swapIdx a i j else a)

/-- Model of `fft::bitReversePermute` on an array of length `n ≥ 2`. -/
def bitReversePermute (n : ℕ) (a : ℕ → ℂ) : ℕ → ℂ :=
  bitrevLoop n (n - 1) 0 0 a

/-- The stage twiddle factor: `Complex(cos angle, sin angle)` for
`angle = -2π/len`, i.e. `exp(-2πi/len)`. -/
noncomputable def wlenOf (len : ℕ) : ℂ :=
  Complex.exp (((-2 * Real.pi / len : ℝ) : ℂ) * Complex.I)

/-- Model of the inner butterfly loop `for (j = 0; j < len/2; ++j)`:
`steps` counts the remaining iterations, `j` is the loop counter and `w`
the incrementally accumulated twiddle. -/
noncomputable def innerLoop (wlen : ℂ) (i half : ℕ) :
    ℕ → ℕ → ℂ → (ℕ → ℂ) → (ℕ → ℂ)
  | 0, _, _, a => a
  | steps + 1, j, w, a =>
    let u := a (i + j)
    let t := w * a (i + j + half)
    innerLoop wlen i half steps (j + 1) (w * wlen)
      (Function.update (Function.update a (i + j) (u + t)) (i + j + half) (u - t))

/-- Model of the block loop `for (i = 0; i < n; i += len)`; `fuel` bounds the
iteration count (the caller passes `n`, which always suffices). -/
noncomputable def blockIter (wlen : ℂ) (len n : ℕ) :
    ℕ → ℕ → (ℕ → ℂ) → (ℕ → ℂ)
  | 0, _, a => a
  | fuel + 1, i, a =>
    if i < n then
      blockIter wlen len n fuel (i + len) (innerLoop wlen i (len / 2) (len / 2) 0 1 a)
    else a

/-- Model of the stage loop `for (len = 2; len <= n; len <<= 1)`; `fuel`
bounds the iteration count (the caller passes `n`, which always suffices). -/
noncomputable def stageIter (n : ℕ) : ℕ → ℕ → (ℕ → ℂ) → (ℕ → ℂ)
  | 0, _, a => a
  | fuel + 1, len, a =>
    if len ≤ n then
      stageIter n fuel (len * 2) (blockIter (wlenOf len) len n n 0 a)
    else a

/-- Model of `fft::transformInPlace` on an array of length `n`: rejects a
non-power-of-two length (the `std::invalid_argument` throw becomes `none`),
returns the input for `n ≤ 1`, and otherwise performs the bit-reversal
permutation followed by the Cooley-Tukey butterfly stages. -/
noncomputable def transformInPlace (n : ℕ) (a : ℕ → ℂ) : Option (ℕ → ℂ) :=
  if isPowerOf2 n then
    if n ≤ 1 then some a
    else some (stageIter n n 2 (bitReversePermute n a))
  else none

/-- The zero-padded complex copy of the real input built by `fft::transform`. -/
def padSignal (signal : List ℝ) : ℕ → ℂ :=
  fun k => if h : k < signal.length then ((signal.get ⟨k, h⟩ : ℝ) : ℂ) else 0

/-- Model of `fft::transform`: zero-pad to the next power of two, then run
the in-place transform.  The result carries the padded length `n` together
with the array. -/
noncomputable def transform (signal : List ℝ) : Option (ℕ × (ℕ → ℂ)) :=
  match transformInPlace (nextPowerOf2 signal.length) (padSignal signal) with
  | some a => some (nextPowerOf2 signal.length, a)
  | none => none

/-- Model of `fft::inverse` on a spectrum of length `n`: conjugate, forward
transform, conjugate and scale by `1/n`. -/
noncomputable def inverse (n : ℕ) (spectrum : ℕ → ℂ) : Option (ℕ → ℂ) :=
  match transformInPlace n (fun k => (starRingEnd ℂ) (spectrum k)) with
  | some a => some (fun k => (starRingEnd ℂ) (a k) / (n : ℂ))
  | none => none

/-- The reference discrete Fourier transform with kernel `exp(-2πi·uk/N)`,
used to state what the butterfly pipeline computes. -/
noncomputable def dftFn (N : ℕ) (x : ℕ → ℂ) : ℕ → ℂ :=
  fun k => ∑ u ∈ Finset.range N, x u * wlenOf N ^ (u * k)

/-- Reversal of the low `m` bits of a natural number. -/
def rev : ℕ → ℕ → ℕ
  | 0, _ => 0
  | m + 1, i => 2 ^ m * (i % 2) + rev m (i / 2)

end fft

namespace eq

/-- Constant `eq::NUM_BANDS`. -/
def NUM_BANDS : ℕ := 5

/-- Constant `eq::MIN_FREQ`. -/
noncomputable def MIN_FREQ : ℝ := 20.0

/-- Constant `eq::MAX_FREQ`. -/
noncomputable def MAX_FREQ : ℝ := 20000.0

/-- Constant `eq::MIN_GAIN`. -/
noncomputable def MIN_GAIN : ℝ := -12.0

/-- Constant `eq::MAX_GAIN`. -/
noncomputable def MAX_GAIN : ℝ := 12.0

/-- Constant `eq::MIN_Q`. -/
noncomputable def MIN_Q : ℝ := 0.1

/-- Constant `eq::MAX_Q`. -/
noncomputable def MAX_Q : ℝ := 10.0

/-- Constant `eq::DEFAULT_Q`. -/
noncomputable def DEFAULT_Q : ℝ := 0.707

/-- Constant array `eq::DEFAULT_FREQUENCIES`. -/
noncomputable def DEFAULT_FREQUENCIES : ℕ → ℝ :=
  fun i => [60.0, 250.0, 1000.0, 4000.0, 12000.0].getD i 0

/-- State of `eq::BiquadFilter`: coefficients plus per-channel delay memory. -/
structure BiquadFilter where
  b0 : ℝ
  b1 : ℝ
  b2 : ℝ
  a1 : ℝ
  a2 : ℝ
  x1 : ℕ → ℝ
  x2 : ℕ → ℝ
  y1 : ℕ → ℝ
  y2 : ℕ → ℝ

/-- A freshly constructed `eq::BiquadFilter` (member initializers plus the
constructor call to `reset()`): identity coefficients, zero delay memory. -/
noncomputable def initBiquad : BiquadFilter :=
  BiquadFilter.mk 1.0 0.0 0.0 0.0 0.0 (fun _ => 0) (fun _ => 0) (fun _ => 0) (fun _ => 0)

/-- Model of `BiquadFilter::setPeakingEQ`: recompute the five coefficients
from `(sampleRate, freq, gainDb, q)` with the Audio EQ Cookbook peaking
formula, clamping `freq` and `q` first; delay memory is untouched. -/
noncomputable def setPeakingEQ (f : BiquadFilter)
    (sampleRate freq gainDb q : ℝ) : BiquadFilter :=
  let freqC := max 20.0 (min freq (sampleRate * 0.45))
  let qC := max 0.1 (min q 10.0)
  let A := (10.0 : ℝ) ^ (gainDb / 40.0)
  let w0 := 2.0 * Real.pi * freqC / sampleRate
  let cosw0 := Real.cos w0
  let sinw0 := Real.sin w0
  let alpha := sinw0 / (2.0 * qC)
  let a0 := 1.0 + alpha / A
  BiquadFilter.mk ((1.0 + alpha * A) / a0) ((-2.0 * cosw0) / a0)
    ((1.0 - alpha * A) / a0) ((-2.0 * cosw0) / a0) ((1.0 - alpha / A) / a0)
    f.x1 f.x2 f.y1 f.y2

/-- Model of `BiquadFilter::process`: one biquad step on the given channel,
shifting that channel delay line; returns the updated filter and the output
sample.  The `float`/`double` casts of the source are identities in the
exact model. -/
noncomputable def biquadProcess (f : BiquadFilter) (input : ℝ) (channel : ℕ) :
    BiquadFilter × ℝ :=
  let x0 := input
  let y0 := f.b0 * x0 + f.b1 * f.x1 channel + f.b2 * f.x2 channel
    - f.a1 * f.y1 channel - f.a2 * f.y2 channel
  (BiquadFilter.mk f.b0 f.b1 f.b2 f.a1 f.a2
    (Function.update f.x1 channel x0) (Function.update f.x2 channel (f.x1 channel))
    (Function.update f.y1 channel y0) (Function.update f.y2 channel (f.y1 channel)), y0)

/-- State of `eq::EQProcessor`. -/
structure EQState where
  sampleRate : ℝ
  bypass : Bool
  frequencies : ℕ → ℝ
  gains : ℕ → ℝ
  qFactors : ℕ → ℝ
  filters : ℕ → BiquadFilter

/-- A freshly constructed `eq::EQProcessor`: default band parameters,
sample rate 44100, not bypassed, default-constructed filters (the
constructor does not recompute coefficients). -/
noncomputable def initEQ : EQState :=
  EQState.mk 44100.0 false DEFAULT_FREQUENCIES (fun _ => 0.0) (fun _ => DEFAULT_Q)
    (fun _ => initBiquad)

/-- Replace the filter at index `i` (helper for the state-update writes). -/
noncomputable def setFilter (s : EQState) (i : ℕ) (f : BiquadFilter) : EQState :=
  EQState.mk s.sampleRate s.bypass s.frequencies s.gains s.qFactors
    (Function.update s.filters i f)

/-- Model of `EQProcessor::updateFilter`. -/
noncomputable def updateFilter (s : EQState) (i : ℕ) : EQState :=
  setFilter s i
    (setPeakingEQ (s.filters i) s.sampleRate (s.frequencies i) (s.gains i) (s.qFactors i))

/-- Model of `EQProcessor::setBandGain`: in-range index stores the clamped
gain and recomputes that band, out-of-range index is a no-op. -/
noncomputable def setBandGain (s : EQState) (band : ℤ) (gainDb : ℝ) : EQState :=
  if 0 ≤ band ∧ band < 5 then
    let i : ℕ := band.toNat
    updateFilter
      (EQState.mk s.sampleRate s.bypass s.frequencies
        (Function.update s.gains i (max MIN_GAIN (min MAX_GAIN gainDb)))
        s.qFactors s.filters) i
  else s

/-- Model of `EQProcessor::setBandFrequency`. -/
noncomputable def setBandFrequency (s : EQState) (band : ℤ) (freq : ℝ) : EQState :=
  if 0 ≤ band ∧ band < 5 then
    let i : ℕ := band.toNat
    updateFilter
      (EQState.mk s.sampleRate s.bypass
        (Function.update s.frequencies i (max MIN_FREQ (min MAX_FREQ freq)))
        s.gains s.qFactors s.filters) i
  else s

/-- Model of `EQProcessor::setBandQ`. -/
noncomputable def setBandQ (s : EQState) (band : ℤ) (q : ℝ) : EQState :=
  if 0 ≤ band ∧ band < 5 then
    let i : ℕ := band.toNat
    updateFilter
      (EQState.mk s.sampleRate s.bypass s.frequencies s.gains
        (Function.update s.qFactors i (max MIN_Q (min MAX_Q q)))
        s.filters) i
  else s

/-- Model of `EQProcessor::setBypass`. -/
noncomputable def setBypass (s : EQState) (b : Bool) : EQState :=
  EQState.mk s.sampleRate b s.frequencies s.gains s.qFactors s.filters

/-- Model of `EQProcessor::getBandGain`: out-of-range index returns 0.0. -/
noncomputable def getBandGain (s : EQState) (band : ℤ) : ℝ :=
  if 0 ≤ band ∧ band < 5 then s.gains band.toNat else 0.0

/-- Model of `EQProcessor::getBandFrequency`: out-of-range index returns 1000.0. -/
noncomputable def getBandFrequency (s : EQState) (band : ℤ) : ℝ :=
  if 0 ≤ band ∧ band < 5 then s.frequencies band.toNat else 1000.0

/-- Model of `EQProcessor::getBandQ`: out-of-range index returns `DEFAULT_Q`. -/
noncomputable def getBandQ (s : EQState) (band : ℤ) : ℝ :=
  if 0 ≤ band ∧ band < 5 then s.qFactors band.toNat else DEFAULT_Q

/-- One iteration of the band loop of `EQProcessor::processMono`, without
the gain guard: run the sample through band `i` on channel 0. -/
noncomputable def monoBandStep (p : EQState × ℝ) (i : ℕ) : EQState × ℝ :=
  let r := biquadProcess (p.1.filters i) p.2 0
  (setFilter p.1 i r.1, r.2)

/-- Model of `EQProcessor::processMono`: return the input unchanged when
bypassed, otherwise run the sample through every band whose gain magnitude
exceeds 0.01 dB, in index order. -/
noncomputable def processMono (s : EQState) (input : ℝ) : EQState × ℝ :=
  if s.bypass then (s, input)
  else
    (List.range 5).foldl
      (fun p i => if 0.01 < |p.1.gains i| then monoBandStep p i else p) (s, input)

/-- One iteration of the band loop of `EQProcessor::process`, without the
gain guard: left sample through channel 0, right sample through channel 1. -/
noncomputable def stereoBandStep (p : EQState × ℝ × ℝ) (i : ℕ) : EQState × ℝ × ℝ :=
  let rl := biquadProcess (p.1.filters i) p.2.1 0
  let st1 := setFilter p.1 i rl.1
  let rr := biquadProcess (st1.filters i) p.2.2 1
  (setFilter st1 i rr.1, rl.2, rr.2)

/-- Model of `EQProcessor::process` (stereo): no-op when bypassed, otherwise
both channels run through every band whose gain magnitude exceeds 0.01 dB. -/
noncomputable def process (s : EQState) (left right : ℝ) : EQState × ℝ × ℝ :=
  if s.bypass then (s, left, right)
  else
    (List.range 5).foldl
      (fun p i => if 0.01 < |p.1.gains i| then stereoBandStep p i else p) (s, left, right)

end eq

namespace SpectrumEQ

/-- One primitive field of the persisted-state stream, at the granularity of
the fixed little-endian layout written by `PluginProcessor::getState`
(`int32` or `float64`). -/
inductive StreamVal where
  | i32 (v : ℤ)
  | f64 (v : ℝ)

/-- Model of `IBStreamer::readInt32` at field granularity: succeeds exactly
when the next field of the stream is present (an `int32`), consuming it. -/
def readInt32 : List StreamVal → Option (ℤ × List StreamVal)
  | StreamVal.i32 v :: rest => some (v, rest)
  | _ => none

/-- Model of `IBStreamer::readDouble` at field granularity. -/
def readDouble : List StreamVal → Option (ℝ × List StreamVal)
  | StreamVal.f64 v :: rest => some (v, rest)
  | _ => none

/-- The three setter calls `setState` makes for one band
(`setBandGain; setBandFrequency; setBandQ`). -/
noncomputable def applyBand (s : eq.EQState) (band : ℕ) (gain freq q : ℝ) : eq.EQState :=
  eq.setBandQ (eq.setBandFrequency (eq.setBandGain s band gain) band freq) band q

/-- The band loop of `PluginProcessor::setState`: for each band read gain,
frequency and Q; on a failed read return `none` together with the equalizer
state as mutated so far; otherwise apply the three setters and continue. -/
noncomputable def readBandsLoop : ℕ → ℕ → List StreamVal → eq.EQState →
    Option (List StreamVal) × eq.EQState
  | 0, _, vs, s => (some vs, s)
  | n + 1, band, vs, s =>
    match readDouble vs with
    | none => (none, s)
    | some (gain, vs1) =>
      match readDouble vs1 with
      | none => (none, s)
      | some (freq, vs2) =>
        match readDouble vs2 with
        | none => (none, s)
        | some (q, vs3) =>
          readBandsLoop n (band + 1) vs3 (applyBand s band gain freq q)

/-- Model of `PluginProcessor::setState`: read `version`, the five band
triples and the bypass flag; the boolean result is `kResultOk`/`kResultFalse`
and the returned state is the equalizer state after the call. -/
noncomputable def setState (vs : List StreamVal) (s : eq.EQState) : Bool × eq.EQState :=
  match readInt32 vs with
  | none => (false, s)
  | some (_version, vs1) =>
    match readBandsLoop eq.NUM_BANDS 0 vs1 s with
    | (none, s1) => (false, s1)
    | (some vs2, s1) =>
      match readInt32 vs2 with
      | none => (false, s1)
      | some (bypassVal, _) => (true, eq.setBypass s1 (decide (bypassVal ≠ 0)))

/-- The band loop of `PluginProcessor::getState`: write gain, frequency and
Q of each band in order. -/
noncomputable def writeBandsLoop : ℕ → ℕ → eq.EQState → List StreamVal
  | 0, _, _ => []
  | n + 1, band, s =>
    StreamVal.f64 (eq.getBandGain s band) ::
      StreamVal.f64 (eq.getBandFrequency s band) ::
        StreamVal.f64 (eq.getBandQ s band) :: writeBandsLoop n (band + 1) s

/-- Model of `PluginProcessor::getState`: `int32 version = 1`, then the five
band triples, then `int32 bypass` (17 fields). -/
noncomputable def getState (s : eq.EQState) : List StreamVal :=
  StreamVal.i32 1 ::
    (writeBandsLoop eq.NUM_BANDS 0 s ++ [StreamVal.i32 (if s.bypass then 1 else 0)])

/-- The number of complete `float64` triples at the head of the stream
remainder that the band loop will fully read (capped by the remaining band
count `n`): equivalently, the index of the first band whose triple cannot be
fully read.  Reference notion used to state where a failed `setState` stops
mutating. -/
def bandsRead : ℕ → List StreamVal → ℕ
  | 0, _ => 0
  | n + 1, vs =>
    match readDouble vs with
    | none => 0
    | some (_, vs1) =>
      match readDouble vs1 with
      | none => 0
      | some (_, vs2) =>
        match readDouble vs2 with
        | none => 0
        | some (_, vs3) => bandsRead n vs3 + 1

/-- The index of the first band of `setState`'s loop whose triple cannot be
fully read from the stream: `0` when even the version field is unreadable,
otherwise the number of complete band triples following the version field. -/
def firstUnreadBand (vs : List StreamVal) : ℕ :=
  match readInt32 vs with
  | none => 0
  | some (_, vs1) => bandsRead eq.NUM_BANDS vs1

end SpectrumEQ

namespace audio

/-- C++ `static_cast<size_t>` applied to a double: truncation toward zero,
which is the floor for the nonnegative values arising below. -/
noncomputable def castToSize (x : ℝ) : ℕ := (Int.floor x).toNat

/-- The fields of `audio::AnalyzerConfig` used by `updateBands`. -/
structure AnalyzerConfig where
  fftSize : ℕ
  numBands : ℕ
  minFrequency : ℝ
  maxFrequency : ℝ
  useLogScale : Bool

/-- Model of `AudioAnalyzer::updateBands`, restricted to the `bandBins`
table it rebuilds: for each band compute the low/high band-edge frequencies
(logarithmically or linearly spaced), convert them to bin indices via
`bin = freq / (sampleRate / fftSize)`, and force `binHigh = binLow + 1`
whenever `binHigh ≤ binLow`.  (The parallel `bandFrequencies` center table
is not needed by any claim and is omitted.) -/
noncomputable def updateBands (sampleRate : ℕ) (cfg : AnalyzerConfig) : List (ℕ × ℕ) :=
  let minFreq := cfg.minFrequency
  let maxFreq := min cfg.maxFrequency ((sampleRate : ℝ) / 2.0)
  let binWidth := (sampleRate : ℝ) / (cfg.fftSize : ℝ)
  let logMin := Real.logb 10 minFreq
  let logMax := Real.logb 10 maxFreq
  let logStep := (logMax - logMin) / (cfg.numBands : ℝ)
  let freqStep := (maxFreq - minFreq) / (cfg.numBands : ℝ)
  (List.range cfg.numBands).map fun (i : ℕ) =>
    let freqLow :=
      if cfg.useLogScale then (10.0 : ℝ) ^ (logMin + (i : ℝ) * logStep)
      else minFreq + (i : ℝ) * freqStep
    let freqHigh :=
      if cfg.useLogScale then (10.0 : ℝ) ^ (logMin + ((i : ℝ) + 1) * logStep)
      else freqLow + freqStep
    let binLow := castToSize (freqLow / binWidth)
    let binHigh := castToSize (freqHigh / binWidth)
    (binLow, if binHigh ≤ binLow then binLow + 1 else binHigh)

/-- Array access `magnitudes[bin]` on the magnitude array; every access the
code performs is in bounds, so the default is never read. -/
def magAt (mags : List ℚ) (bin : ℕ) : ℚ := mags.getD bin 0

/-- One iteration of the inner `for (bin = startBin; bin <= endBin; ++bin)`
loop body of `AudioAnalyzer::computeSpectrum`, restricted to its effect on
the accumulator `(bandMax, maxMag, peakBin)`; the scanned bin is
`startBin + k`.  Magnitudes are rationals: every `double` value is rational
and the loop only compares and copies them. -/
def binScanStep (mags : List ℚ) (startBin : ℕ) (acc : ℚ × ℚ × ℕ) (k : ℕ) : ℚ × ℚ × ℕ :=
  let mag := magAt mags (startBin + k)
  let bandMax := if acc.1 < mag then mag else acc.1
  if acc.2.1 < mag then (bandMax, mag, startBin + k)
  else (bandMax, acc.2.1, acc.2.2)

/-- The inner bin loop of `AudioAnalyzer::computeSpectrum`: scan the bins
`startBin, ..., endBin` in order. -/
def binScan (mags : List ℚ) (startBin endBin : ℕ) (acc : ℚ × ℚ × ℕ) : ℚ × ℚ × ℕ :=
  (List.range (endBin + 1 - startBin)).foldl (binScanStep mags startBin) acc

/-- One iteration of the band loop of `AudioAnalyzer::computeSpectrum`,
restricted to its effect on `(maxMag, peakBin)`: a band whose `startBin` is
at or beyond `halfSize` is skipped, otherwise `endBin` is clamped to
`halfSize - 1` and the band bin range is scanned. -/
def bandScanStep (mags : List ℚ) (halfSize : ℕ) (acc : ℚ × ℕ) (p : ℕ × ℕ) : ℚ × ℕ :=
  if halfSize ≤ p.1 then acc
  else
    let r := binScan mags p.1 (min p.2 (halfSize - 1)) (0, acc.1, acc.2)
    (r.2.1, r.2.2)

/-- The band loop of `AudioAnalyzer::computeSpectrum`, restricted to its
effect on `(maxMag, peakBin)`; both start at `0`. -/
def computePeakScan (mags : List ℚ) (bins : List (ℕ × ℕ)) (halfSize : ℕ) : ℚ × ℕ :=
  bins.foldl (bandScanStep mags halfSize) (0, 0)

/-- The peak frequency reported by `computeSpectrum`:
`peakBin * (sampleRate / fftSize)`. -/
def peakFrequencyOf (sampleRate fftSize : ℕ) (mags : List ℚ) (bins : List (ℕ × ℕ)) : ℚ :=
  ((computePeakScan mags bins (fftSize / 2)).2 : ℚ) * ((sampleRate : ℚ) / (fftSize : ℚ))

/-- Stated from the spec, for comparison with the implementation: `b` is a
bin of the positive-frequency half carrying the largest magnitude of that
whole half. -/
def specIsGlobalPeakBin (mags : List ℚ) (halfSize b : ℕ) : Prop :=
  b < halfSize ∧ ∀ k, k < halfSize → magAt mags k ≤ magAt mags b

end audio

/-! Theorems.  Each claim of the specification is settled by one theorem
below (plus a closed witness where the theorem carries hypotheses). -/

/-- C10: for every band index outside `[0, 4]` the getters return the
fixed defaults 0.0 dB, 1000.0 Hz and `DEFAULT_Q = 0.707`, whatever the
equalizer state. -/
theorem getBand_out_of_range_defaults (s : eq.EQState) (band : ℤ)
    (h : band < 0 ∨ 5 ≤ band) :
    eq.getBandGain s band = 0 ∧ eq.getBandFrequency s band = 1000 ∧
      eq.getBandQ s band = 0.707 := by
  have hn : ¬(0 ≤ band ∧ band < 5) := by omega
  unfold eq.getBandGain eq.getBandFrequency eq.getBandQ
  rw [if_neg hn, if_neg hn, if_neg hn]
  norm_num [eq.DEFAULT_Q]

/-- Witness for C10 at band index 7 and the freshly constructed state. -/
theorem getBand_out_of_range_defaults_witness :
    eq.getBandGain eq.initEQ 7 = 0 ∧ eq.getBandFrequency eq.initEQ 7 = 1000 ∧
      eq.getBandQ eq.initEQ 7 = 0.707 :=
  getBand_out_of_range_defaults eq.initEQ 7 (Or.inr (by norm_num))

/-- C5: with the bypass flag set, `process` and `processMono` return their
input samples unchanged and leave the whole state (in particular every
filter delay line) untouched. -/
theorem bypass_is_identity (s : eq.EQState) (l r x : ℝ) (h : s.bypass = true) :
    eq.process s l r = (s, l, r) ∧ eq.processMono s x = (s, x) := by
  constructor
  · unfold eq.process
    rw [if_pos (by simp [h])]
  · unfold eq.processMono
    rw [if_pos (by simp [h])]

/-- Witness for C5 at a bypassed default state and concrete samples. -/
theorem bypass_is_identity_witness :
    eq.process (eq.setBypass eq.initEQ true) 1 2 = (eq.setBypass eq.initEQ true, 1, 2) ∧
      eq.processMono (eq.setBypass eq.initEQ true) 3 = (eq.setBypass eq.initEQ true, 3) :=
  bypass_is_identity (eq.setBypass eq.initEQ true) 1 2 3 rfl

lemma monoBandStep_gains (p : eq.EQState × ℝ) (i : ℕ) :
    (eq.monoBandStep p i).1.gains = p.1.gains := rfl

lemma stereoBandStep_gains (p : eq.EQState × ℝ × ℝ) (i : ℕ) :
    (eq.stereoBandStep p i).1.gains = p.1.gains := rfl

lemma guardedFoldMono (l : List ℕ) (p : eq.EQState × ℝ) :
    l.foldl (fun p i => if 0.01 < |p.1.gains i| then eq.monoBandStep p i else p) p =
      (l.filter (fun i => decide (0.01 < |p.1.gains i|))).foldl eq.monoBandStep p := by
  induction l generalizing p with
  | nil => rfl
  | cons a l ih =>
    simp only [List.foldl_cons, List.filter_cons]
    by_cases h : 0.01 < |p.1.gains a|
    · rw [if_pos h, if_pos (decide_eq_true h), List.foldl_cons]
      rw [ih (eq.monoBandStep p a), monoBandStep_gains]
    · rw [if_neg h, if_neg (fun hc => h (of_decide_eq_true hc))]
      exact ih p

lemma guardedFoldStereo (l : List ℕ) (p : eq.EQState × ℝ × ℝ) :
    l.foldl (fun p i => if 0.01 < |p.1.gains i| then eq.stereoBandStep p i else p) p =
      (l.filter (fun i => decide (0.01 < |p.1.gains i|))).foldl eq.stereoBandStep p := by
  induction l generalizing p with
  | nil => rfl
  | cons a l ih =>
    simp only [List.foldl_cons, List.filter_cons]
    by_cases h : 0.01 < |p.1.gains a|
    · rw [if_pos h, if_pos (decide_eq_true h), List.foldl_cons]
      rw [ih (eq.stereoBandStep p a), stereoBandStep_gains]
    · rw [if_neg h, if_neg (fun hc => h (of_decide_eq_true hc))]
      exact ih p

/-- C6: with bypass off, `processMono` and `process` run the sample through
exactly the bands whose gain magnitude exceeds 0.01 dB, in band-index order;
in particular, when every band gain magnitude is at most 0.01 dB both calls
return their input and mutate no filter delay state. -/
theorem active_bands_only (s : eq.EQState) (x l r : ℝ) (h : s.bypass = false) :
    eq.processMono s x =
        ((List.range 5).filter (fun i => decide (0.01 < |s.gains i|))).foldl
          eq.monoBandStep (s, x) ∧
      eq.process s l r =
        ((List.range 5).filter (fun i => decide (0.01 < |s.gains i|))).foldl
          eq.stereoBandStep (s, l, r) ∧
      ((∀ i, |s.gains i| ≤ 0.01) → eq.processMono s x = (s, x)) ∧
      ((∀ i, |s.gains i| ≤ 0.01) → eq.process s l r = (s, l, r)) := by
  have hm : eq.processMono s x =
      ((List.range 5).filter (fun i => decide (0.01 < |s.gains i|))).foldl
        eq.monoBandStep (s, x) := by
    unfold eq.processMono
    rw [if_neg (by simp [h])]
    exact guardedFoldMono _ (s, x)
  have hs : eq.process s l r =
      ((List.range 5).filter (fun i => decide (0.01 < |s.gains i|))).foldl
        eq.stereoBandStep (s, l, r) := by
    unfold eq.process
    rw [if_neg (by simp [h])]
    exact guardedFoldStereo _ (s, l, r)
  have hempty : (∀ i, |s.gains i| ≤ 0.01) →
      (List.range 5).filter (fun i => decide (0.01 < |s.gains i|)) = [] := by
    intro hall
    rw [List.filter_eq_nil_iff]
    intro a _
    simpa using not_lt.mpr (hall a)
  refine ⟨hm, hs, fun hall => ?_, fun hall => ?_⟩
  · rw [hm, hempty hall]; rfl
  · rw [hs, hempty hall]; rfl

/-- Witness for C6 at the default state (all gains 0, bypass off). -/
theorem active_bands_only_witness :
    eq.processMono eq.initEQ 3 = (eq.initEQ, 3) ∧ eq.process eq.initEQ 1 2 = (eq.initEQ, 1, 2) := by
  have h := active_bands_only eq.initEQ 3 1 2 rfl
  have hall : ∀ i : ℕ, |eq.initEQ.gains i| ≤ 0.01 := by
    intro i
    have hg : eq.initEQ.gains i = 0 := by norm_num [eq.initEQ]
    rw [hg]
    norm_num
  exact ⟨h.2.2.1 hall, h.2.2.2 hall⟩

lemma setPeakingEQ_stable (f : eq.BiquadFilter) (sr fr g q : ℝ) :
    eq.setPeakingEQ (eq.setPeakingEQ f sr fr g q) sr fr g q = eq.setPeakingEQ f sr fr g q :=
  rfl

/-- C4: each band setter silently no-ops on an out-of-range index; on an
in-range index it stores the value clamped to its domain (gain to
`[-12, 12]`, frequency to `[20, 20000]`, Q to `[0.1, 10]`); and each setter
is idempotent — calling it twice with the same value yields the same state
(hence the same stored value) as calling it once. -/
theorem band_setters_contract :
    (∀ (s : eq.EQState) (band : ℤ) (v : ℝ), band < 0 ∨ 5 ≤ band →
      eq.setBandGain s band v = s ∧ eq.setBandFrequency s band v = s ∧
        eq.setBandQ s band v = s) ∧
    (∀ (s : eq.EQState) (band : ℤ) (v : ℝ), 0 ≤ band → band < 5 →
      eq.getBandGain (eq.setBandGain s band v) band = max (-12) (min 12 v) ∧
      eq.getBandFrequency (eq.setBandFrequency s band v) band = max 20 (min 20000 v) ∧
      eq.getBandQ (eq.setBandQ s band v) band = max 0.1 (min 10 v)) ∧
    (∀ (s : eq.EQState) (band : ℤ) (v : ℝ),
      eq.setBandGain (eq.setBandGain s band v) band v = eq.setBandGain s band v ∧
      eq.setBandFrequency (eq.setBandFrequency s band v) band v =
        eq.setBandFrequency s band v ∧
      eq.setBandQ (eq.setBandQ s band v) band v = eq.setBandQ s band v) := by
  refine ⟨fun s band v h => ?_, fun s band v h0 h5 => ?_, fun s band v => ?_⟩
  · have hn : ¬(0 ≤ band ∧ band < 5) := by omega
    unfold eq.setBandGain eq.setBandFrequency eq.setBandQ
    rw [if_neg hn, if_neg hn, if_neg hn]
    exact ⟨rfl, rfl, rfl⟩
  · have h : 0 ≤ band ∧ band < 5 := ⟨h0, h5⟩
    unfold eq.setBandGain eq.setBandFrequency eq.setBandQ
      eq.getBandGain eq.getBandFrequency eq.getBandQ eq.updateFilter eq.setFilter
    rw [if_pos h, if_pos h, if_pos h, if_pos h, if_pos h, if_pos h]
    simp only [Function.update_same]
    norm_num [eq.MIN_GAIN, eq.MAX_GAIN, eq.MIN_FREQ, eq.MAX_FREQ, eq.MIN_Q, eq.MAX_Q]
  · by_cases h : 0 ≤ band ∧ band < 5
    · refine ⟨?_, ?_, ?_⟩
      · simp only [eq.setBandGain, eq.updateFilter, eq.setFilter, if_pos h,
          Function.update_same, Function.update_idem, setPeakingEQ_stable]
      · simp only [eq.setBandFrequency, eq.updateFilter, eq.setFilter, if_pos h,
          Function.update_same, Function.update_idem, setPeakingEQ_stable]
      · simp only [eq.setBandQ, eq.updateFilter, eq.setFilter, if_pos h,
          Function.update_same, Function.update_idem, setPeakingEQ_stable]
    · have e1 : eq.setBandGain s band v = s := by unfold eq.setBandGain; rw [if_neg h]
      have e2 : eq.setBandFrequency s band v = s := by
        unfold eq.setBandFrequency; rw [if_neg h]
      have e3 : eq.setBandQ s band v = s := by unfold eq.setBandQ; rw [if_neg h]
      rw [e1, e2, e3]
      exact ⟨e1, e2, e3⟩

lemma applyBand_components (t : eq.EQState) (b : ℕ) (hb : b < 5) (g fr q : ℝ) :
    (SpectrumEQ.applyBand t b g fr q).sampleRate = t.sampleRate ∧
      (SpectrumEQ.applyBand t b g fr q).bypass = t.bypass ∧
      (SpectrumEQ.applyBand t b g fr q).gains =
        Function.update t.gains b (max eq.MIN_GAIN (min eq.MAX_GAIN g)) ∧
      (SpectrumEQ.applyBand t b g fr q).frequencies =
        Function.update t.frequencies b (max eq.MIN_FREQ (min eq.MAX_FREQ fr)) ∧
      (SpectrumEQ.applyBand t b g fr q).qFactors =
        Function.update t.qFactors b (max eq.MIN_Q (min eq.MAX_Q q)) := by
  have h : (0 : ℤ) ≤ (b : ℤ) ∧ (b : ℤ) < 5 := ⟨Int.natCast_nonneg b, by exact_mod_cast hb⟩
  simp only [SpectrumEQ.applyBand, eq.setBandGain, eq.setBandFrequency, eq.setBandQ,
    if_pos h, eq.updateFilter, eq.setFilter, Int.toNat_natCast]
  exact ⟨by trivial, by trivial, by trivial, by trivial, by trivial⟩

lemma applyBand_other (t : eq.EQState) (b : ℕ) (g fr q : ℝ) :
    (SpectrumEQ.applyBand t b g fr q).bypass = t.bypass ∧
      ∀ i, i ≠ b →
        (SpectrumEQ.applyBand t b g fr q).gains i = t.gains i ∧
        (SpectrumEQ.applyBand t b g fr q).frequencies i = t.frequencies i ∧
        (SpectrumEQ.applyBand t b g fr q).qFactors i = t.qFactors i := by
  by_cases hb : b < 5
  · obtain ⟨-, hbyp, hg, hf, hq⟩ := applyBand_components t b hb g fr q
    refine ⟨hbyp, fun i hi => ?_⟩
    rw [hg, hf, hq, Function.update_noteq hi, Function.update_noteq hi,
      Function.update_noteq hi]
    exact ⟨rfl, rfl, rfl⟩
  · have h : ¬((0 : ℤ) ≤ (b : ℤ) ∧ (b : ℤ) < 5) := by
      push_neg
      intro _
      exact_mod_cast Nat.not_lt.mp hb
    simp only [SpectrumEQ.applyBand, eq.setBandGain, eq.setBandFrequency, eq.setBandQ,
      if_neg h]
    exact ⟨by trivial, fun i _ => ⟨by trivial, by trivial, by trivial⟩⟩

lemma getBand_in_range (s : eq.EQState) (b : ℕ) (hb : b < 5) :
    eq.getBandGain s (b : ℤ) = s.gains b ∧
      eq.getBandFrequency s (b : ℤ) = s.frequencies b ∧
      eq.getBandQ s (b : ℤ) = s.qFactors b := by
  have h : (0 : ℤ) ≤ (b : ℤ) ∧ (b : ℤ) < 5 := ⟨Int.natCast_nonneg b, by exact_mod_cast hb⟩
  unfold eq.getBandGain eq.getBandFrequency eq.getBandQ
  rw [if_pos h, if_pos h, if_pos h, Int.toNat_natCast]
  exact ⟨by trivial, by trivial, by trivial⟩

/-- Witness for C4 at a concrete state, index and values (in-range parts at
band 2 with an out-of-domain gain 100; out-of-range part at band -3). -/
theorem band_setters_contract_witness :
    eq.setBandGain eq.initEQ (-3) 5 = eq.initEQ ∧
      eq.getBandGain (eq.setBandGain eq.initEQ 2 100) 2 = max (-12) (min 12 100) ∧
      eq.setBandGain (eq.setBandGain eq.initEQ 2 100) 2 100 =
        eq.setBandGain eq.initEQ 2 100 :=
  ⟨(band_setters_contract.1 eq.initEQ (-3) 5 (Or.inl (by norm_num))).1,
    (band_setters_contract.2.1 eq.initEQ 2 100 (by norm_num) (by norm_num)).1,
    (band_setters_contract.2.2 eq.initEQ 2 100).1⟩

lemma writeBandsLoop_succ (n band : ℕ) (s : eq.EQState) :
    SpectrumEQ.writeBandsLoop (n + 1) band s =
      SpectrumEQ.StreamVal.f64 (eq.getBandGain s (band : ℤ)) ::
        SpectrumEQ.StreamVal.f64 (eq.getBandFrequency s (band : ℤ)) ::
          SpectrumEQ.StreamVal.f64 (eq.getBandQ s (band : ℤ)) ::
            SpectrumEQ.writeBandsLoop n (band + 1) s :=
  rfl

lemma readBandsLoop_succ_cons (n band : ℕ) (g fr q : ℝ)
    (rest : List SpectrumEQ.StreamVal) (t : eq.EQState) :
    SpectrumEQ.readBandsLoop (n + 1) band
        (SpectrumEQ.StreamVal.f64 g :: SpectrumEQ.StreamVal.f64 fr ::
          SpectrumEQ.StreamVal.f64 q :: rest) t =
      SpectrumEQ.readBandsLoop n (band + 1) rest (SpectrumEQ.applyBand t band g fr q) :=
  rfl

lemma readBands_writeBands (n : ℕ) :
    ∀ (band : ℕ) (rest : List SpectrumEQ.StreamVal) (s t : eq.EQState),
      band + n ≤ 5 →
      (∀ i, band ≤ i → i < band + n →
        eq.MIN_GAIN ≤ s.gains i ∧ s.gains i ≤ eq.MAX_GAIN ∧
        eq.MIN_FREQ ≤ s.frequencies i ∧ s.frequencies i ≤ eq.MAX_FREQ ∧
        eq.MIN_Q ≤ s.qFactors i ∧ s.qFactors i ≤ eq.MAX_Q) →
      ∃ T, SpectrumEQ.readBandsLoop n band
          (SpectrumEQ.writeBandsLoop n band s ++ rest) t = (some rest, T) ∧
        T.bypass = t.bypass ∧
        (∀ i, band ≤ i → i < band + n → T.gains i = s.gains i ∧
          T.frequencies i = s.frequencies i ∧ T.qFactors i = s.qFactors i) ∧
        (∀ i, i < band ∨ band + n ≤ i → T.gains i = t.gains i ∧
          T.frequencies i = t.frequencies i ∧ T.qFactors i = t.qFactors i) := by
  induction n with
  | zero =>
    intro band rest s t _ _
    exact ⟨t, rfl, rfl, fun i h1 h2 => absurd h2 (by omega),
      fun i _ => ⟨rfl, rfl, rfl⟩⟩
  | succ n ih =>
    intro band rest s t hle hdom
    have hb5 : band < 5 := by omega
    obtain ⟨hg, hf, hq⟩ := getBand_in_range s band hb5
    rw [writeBandsLoop_succ, List.cons_append, List.cons_append, List.cons_append,
      readBandsLoop_succ_cons, hg, hf, hq]
    set t1 := SpectrumEQ.applyBand t band (s.gains band) (s.frequencies band)
      (s.qFactors band) with ht1
    obtain ⟨hd1, hd2, hd3, hd4, hd5, hd6⟩ := hdom band (le_refl band) (by omega)
    obtain ⟨-, hbyp1, hg1, hf1, hq1⟩ := applyBand_components t band hb5 (s.gains band)
      (s.frequencies band) (s.qFactors band)
    have hclampg : max eq.MIN_GAIN (min eq.MAX_GAIN (s.gains band)) = s.gains band := by
      rw [min_eq_right hd2, max_eq_right hd1]
    have hclampf : max eq.MIN_FREQ (min eq.MAX_FREQ (s.frequencies band)) =
        s.frequencies band := by
      rw [min_eq_right hd4, max_eq_right hd3]
    have hclampq : max eq.MIN_Q (min eq.MAX_Q (s.qFactors band)) = s.qFactors band := by
      rw [min_eq_right hd6, max_eq_right hd5]
    rw [hclampg] at hg1
    rw [hclampf] at hf1
    rw [hclampq] at hq1
    obtain ⟨T, hT, hTbyp, hTin, hTout⟩ := ih (band + 1) rest s t1 (by omega)
      (fun i h1 h2 => hdom i (by omega) (by omega))
    refine ⟨T, hT, by rw [hTbyp, ht1, hbyp1], ?_, ?_⟩
    · intro i h1 h2
      by_cases hib : i = band
      · subst hib
        obtain ⟨e1, e2, e3⟩ := hTout i (Or.inl (by omega))
        rw [e1, e2, e3, ht1, hg1, hf1, hq1, Function.update_same,
          Function.update_same, Function.update_same]
        exact ⟨rfl, rfl, rfl⟩
      · exact hTin i (by omega) (by omega)
    · intro i hi
      have hib : i ≠ band := by omega
      obtain ⟨e1, e2, e3⟩ := hTout i (by omega)
      rw [e1, e2, e3, ht1, hg1, hf1, hq1, Function.update_noteq hib,
        Function.update_noteq hib, Function.update_noteq hib]
      exact ⟨rfl, rfl, rfl⟩

/-- C2: serializing an equalizer state whose bands are in-domain through the
fixed 17-field layout and reading the stream back reproduces the band values
and bypass flag exactly, whatever state the reader started from. -/
theorem state_roundtrip (s t : eq.EQState)
    (hdom : ∀ i, i < 5 →
      eq.MIN_GAIN ≤ s.gains i ∧ s.gains i ≤ eq.MAX_GAIN ∧
      eq.MIN_FREQ ≤ s.frequencies i ∧ s.frequencies i ≤ eq.MAX_FREQ ∧
      eq.MIN_Q ≤ s.qFactors i ∧ s.qFactors i ≤ eq.MAX_Q) :
    (SpectrumEQ.setState (SpectrumEQ.getState s) t).1 = true ∧
      (∀ i, i < 5 →
        (SpectrumEQ.setState (SpectrumEQ.getState s) t).2.gains i = s.gains i ∧
        (SpectrumEQ.setState (SpectrumEQ.getState s) t).2.frequencies i = s.frequencies i ∧
        (SpectrumEQ.setState (SpectrumEQ.getState s) t).2.qFactors i = s.qFactors i) ∧
      (SpectrumEQ.setState (SpectrumEQ.getState s) t).2.bypass = s.bypass := by
  obtain ⟨T, hT, hTbyp, hTin, hTout⟩ := readBands_writeBands 5 0
    [SpectrumEQ.StreamVal.i32 (if s.bypass then 1 else 0)] s t (by omega)
    (fun i _ h2 => hdom i h2)
  have hset : SpectrumEQ.setState (SpectrumEQ.getState s) t =
      (true, eq.setBypass T (decide ((if s.bypass then (1 : ℤ) else 0) ≠ 0))) := by
    unfold SpectrumEQ.setState SpectrumEQ.getState
    rw [show eq.NUM_BANDS = 5 from rfl]
    simp only [SpectrumEQ.readInt32]
    rw [hT]
  rw [hset]
  have hgains : (eq.setBypass T (decide ((if s.bypass then (1 : ℤ) else 0) ≠ 0))).gains
      = T.gains := rfl
  have hfreqs : (eq.setBypass T (decide ((if s.bypass then (1 : ℤ) else 0) ≠ 0))).frequencies
      = T.frequencies := rfl
  have hqs : (eq.setBypass T (decide ((if s.bypass then (1 : ℤ) else 0) ≠ 0))).qFactors
      = T.qFactors := rfl
  refine ⟨rfl, fun i hi => ?_, ?_⟩
  · show T.gains i = s.gains i ∧ T.frequencies i = s.frequencies i ∧
      T.qFactors i = s.qFactors i
    exact hTin i (by omega) (by omega)
  · show decide ((if s.bypass then (1 : ℤ) else 0) ≠ 0) = s.bypass
    cases s.bypass <;> simp

/-- Witness for C2: round trip of the freshly constructed state, read back
into a bypassed state. -/
theorem state_roundtrip_witness :
    (SpectrumEQ.setState (SpectrumEQ.getState eq.initEQ)
        (eq.setBypass eq.initEQ true)).1 = true ∧
      (SpectrumEQ.setState (SpectrumEQ.getState eq.initEQ)
          (eq.setBypass eq.initEQ true)).2.bypass = eq.initEQ.bypass := by
  have hdom : ∀ i, i < 5 →
      eq.MIN_GAIN ≤ eq.initEQ.gains i ∧ eq.initEQ.gains i ≤ eq.MAX_GAIN ∧
      eq.MIN_FREQ ≤ eq.initEQ.frequencies i ∧ eq.initEQ.frequencies i ≤ eq.MAX_FREQ ∧
      eq.MIN_Q ≤ eq.initEQ.qFactors i ∧ eq.initEQ.qFactors i ≤ eq.MAX_Q := by
    intro i hi
    interval_cases i <;>
      norm_num [eq.initEQ, eq.DEFAULT_FREQUENCIES, eq.DEFAULT_Q, eq.MIN_GAIN,
        eq.MAX_GAIN, eq.MIN_FREQ, eq.MAX_FREQ, eq.MIN_Q, eq.MAX_Q]
  have h := state_roundtrip eq.initEQ (eq.setBypass eq.initEQ true) hdom
  exact ⟨h.1, h.2.2⟩

lemma readBandsLoop_preserved (n : ℕ) :
    ∀ (band : ℕ) (vs : List SpectrumEQ.StreamVal) (s : eq.EQState),
      (SpectrumEQ.readBandsLoop n band vs s).2.bypass = s.bypass ∧
      ∀ i, band + SpectrumEQ.bandsRead n vs ≤ i →
        (SpectrumEQ.readBandsLoop n band vs s).2.gains i = s.gains i ∧
        (SpectrumEQ.readBandsLoop n band vs s).2.frequencies i = s.frequencies i ∧
        (SpectrumEQ.readBandsLoop n band vs s).2.qFactors i = s.qFactors i := by
  induction n with
  | zero =>
    intro band vs s
    exact ⟨by trivial, fun i _ => ⟨by trivial, by trivial, by trivial⟩⟩
  | succ n ih =>
    intro band vs s
    rcases hd1 : SpectrumEQ.readDouble vs with _ | ⟨⟨g, vs1⟩⟩
    · simp only [SpectrumEQ.readBandsLoop, SpectrumEQ.bandsRead, hd1]
      exact ⟨by trivial, fun i _ => ⟨by trivial, by trivial, by trivial⟩⟩
    · rcases hd2 : SpectrumEQ.readDouble vs1 with _ | ⟨⟨fr, vs2⟩⟩
      · simp only [SpectrumEQ.readBandsLoop, SpectrumEQ.bandsRead, hd1, hd2]
        exact ⟨by trivial, fun i _ => ⟨by trivial, by trivial, by trivial⟩⟩
      · rcases hd3 : SpectrumEQ.readDouble vs2 with _ | ⟨⟨q, vs3⟩⟩
        · simp only [SpectrumEQ.readBandsLoop, SpectrumEQ.bandsRead, hd1, hd2, hd3]
          exact ⟨by trivial, fun i _ => ⟨by trivial, by trivial, by trivial⟩⟩
        · simp only [SpectrumEQ.readBandsLoop, SpectrumEQ.bandsRead, hd1, hd2, hd3]
          obtain ⟨hab, hother⟩ := applyBand_other s band g fr q
          obtain ⟨hbyp, hcomp⟩ := ih (band + 1) vs3 (SpectrumEQ.applyBand s band g fr q)
          refine ⟨by rw [hbyp, hab], fun i hi => ?_⟩
          obtain ⟨e1, e2, e3⟩ := hcomp i (by omega)
          obtain ⟨f1, f2, f3⟩ := hother i (by omega)
          exact ⟨by rw [e1, f1], by rw [e2, f2], by rw [e3, f3]⟩

/-- C3 (amended): on a malformed (truncated) stream `setState` returns a
boolean failure, never changes the bypass flag, and leaves every band from
`firstUnreadBand vs` — the index of the first band whose triple cannot be
fully read from the stream — onward exactly unchanged; bands whose three
values were fully read before the failure point, however, have already been
applied (see the counterexample), so the prior state is not fully
preserved. -/
theorem setState_failure_leaves_suffix (vs : List SpectrumEQ.StreamVal)
    (s : eq.EQState) (hfail : (SpectrumEQ.setState vs s).1 = false) :
    (SpectrumEQ.setState vs s).2.bypass = s.bypass ∧
      ∀ i, SpectrumEQ.firstUnreadBand vs ≤ i →
        (SpectrumEQ.setState vs s).2.gains i = s.gains i ∧
        (SpectrumEQ.setState vs s).2.frequencies i = s.frequencies i ∧
        (SpectrumEQ.setState vs s).2.qFactors i = s.qFactors i := by
  rcases hri : SpectrumEQ.readInt32 vs with _ | ⟨⟨v, vs1⟩⟩
  · simp only [SpectrumEQ.setState, SpectrumEQ.firstUnreadBand, hri]
    exact ⟨by trivial, fun i _ => ⟨by trivial, by trivial, by trivial⟩⟩
  · obtain ⟨hbyp, hcomp⟩ := readBandsLoop_preserved eq.NUM_BANDS 0 vs1 s
    rcases hloop : SpectrumEQ.readBandsLoop eq.NUM_BANDS 0 vs1 s with ⟨o, s1⟩
    rw [hloop] at hbyp hcomp
    have hfu : SpectrumEQ.firstUnreadBand vs = SpectrumEQ.bandsRead eq.NUM_BANDS vs1 := by
      simp only [SpectrumEQ.firstUnreadBand, hri]
    rcases o with _ | vs2
    · simp only [SpectrumEQ.setState, hri, hloop, hfu]
      exact ⟨hbyp, fun i hi => hcomp i (by omega)⟩
    · rcases hri2 : SpectrumEQ.readInt32 vs2 with _ | ⟨⟨b, vs3⟩⟩
      · simp only [SpectrumEQ.setState, hri, hloop, hri2, hfu]
        exact ⟨hbyp, fun i hi => hcomp i (by omega)⟩
      · exfalso
        simp only [SpectrumEQ.setState, hri, hloop, hri2] at hfail
        exact Bool.true_eq_false.mp hfail

/-- Counterexample to C3 as stated: a stream truncated after the first band
triple makes `setState` return failure, yet band 0 of the state has been
overwritten (gain 0 became 5), so the prior state is not left untouched. -/
theorem setState_partial_apply :
    (SpectrumEQ.setState
        [SpectrumEQ.StreamVal.i32 1, SpectrumEQ.StreamVal.f64 5,
          SpectrumEQ.StreamVal.f64 500, SpectrumEQ.StreamVal.f64 2] eq.initEQ).1 = false ∧
      (SpectrumEQ.setState
        [SpectrumEQ.StreamVal.i32 1, SpectrumEQ.StreamVal.f64 5,
          SpectrumEQ.StreamVal.f64 500, SpectrumEQ.StreamVal.f64 2] eq.initEQ).2.gains 0 = 5 ∧
      eq.initEQ.gains 0 = 0 ∧
      (SpectrumEQ.setState
        [SpectrumEQ.StreamVal.i32 1, SpectrumEQ.StreamVal.f64 5,
          SpectrumEQ.StreamVal.f64 500, SpectrumEQ.StreamVal.f64 2] eq.initEQ).2 ≠
        eq.initEQ := by
  have hred : SpectrumEQ.setState
      [SpectrumEQ.StreamVal.i32 1, SpectrumEQ.StreamVal.f64 5,
        SpectrumEQ.StreamVal.f64 500, SpectrumEQ.StreamVal.f64 2] eq.initEQ =
      (false, SpectrumEQ.applyBand eq.initEQ 0 5 500 2) := rfl
  obtain ⟨-, -, hg, -, -⟩ := applyBand_components eq.initEQ 0 (by omega) 5 500 2
  have hg0 : (SpectrumEQ.applyBand eq.initEQ 0 5 500 2).gains 0 = 5 := by
    rw [hg, Function.update_same, eq.MIN_GAIN, eq.MAX_GAIN]
    norm_num
  have hinit : eq.initEQ.gains 0 = 0 := by norm_num [eq.initEQ]
  refine ⟨by rw [hred], by rw [hred]; exact hg0, hinit, fun heq => ?_⟩
  rw [hred] at heq
  have : (SpectrumEQ.applyBand eq.initEQ 0 5 500 2).gains 0 = eq.initEQ.gains 0 := by
    rw [congrArg eq.EQState.gains heq]
  rw [hg0, hinit] at this
  norm_num at this

/-- Witness for the amended C3 theorem at the counterexample's stream
(truncated after band 0's triple): `firstUnreadBand` of that stream is `1`,
so the theorem yields that bands `1`–`4` are exactly preserved even though
band 0 has been overwritten. -/
theorem setState_failure_leaves_suffix_witness :
    (SpectrumEQ.setState
          [SpectrumEQ.StreamVal.i32 1, SpectrumEQ.StreamVal.f64 5,
            SpectrumEQ.StreamVal.f64 500, SpectrumEQ.StreamVal.f64 2]
          eq.initEQ).2.bypass = eq.initEQ.bypass ∧
      ∀ i, SpectrumEQ.firstUnreadBand
            [SpectrumEQ.StreamVal.i32 1, SpectrumEQ.StreamVal.f64 5,
              SpectrumEQ.StreamVal.f64 500, SpectrumEQ.StreamVal.f64 2] ≤ i →
        (SpectrumEQ.setState
            [SpectrumEQ.StreamVal.i32 1, SpectrumEQ.StreamVal.f64 5,
              SpectrumEQ.StreamVal.f64 500, SpectrumEQ.StreamVal.f64 2]
            eq.initEQ).2.gains i = eq.initEQ.gains i ∧
          (SpectrumEQ.setState
              [SpectrumEQ.StreamVal.i32 1, SpectrumEQ.StreamVal.f64 5,
                SpectrumEQ.StreamVal.f64 500, SpectrumEQ.StreamVal.f64 2]
              eq.initEQ).2.frequencies i = eq.initEQ.frequencies i ∧
          (SpectrumEQ.setState
              [SpectrumEQ.StreamVal.i32 1, SpectrumEQ.StreamVal.f64 5,
                SpectrumEQ.StreamVal.f64 500, SpectrumEQ.StreamVal.f64 2]
              eq.initEQ).2.qFactors i = eq.initEQ.qFactors i :=
  setState_failure_leaves_suffix
    [SpectrumEQ.StreamVal.i32 1, SpectrumEQ.StreamVal.f64 5,
      SpectrumEQ.StreamVal.f64 500, SpectrumEQ.StreamVal.f64 2] eq.initEQ rfl

/-- C8: after any band-table rebuild (any sample rate, any configuration
with at least one band, log or linear scale), the table has one entry per
band and every entry satisfies `binLow + 1 ≤ binHigh`: no band has an empty
bin range. -/
theorem bands_never_empty (sampleRate : ℕ) (cfg : audio.AnalyzerConfig)
    (hn : 1 ≤ cfg.numBands) :
    (audio.updateBands sampleRate cfg).length = cfg.numBands ∧
      ∀ p ∈ audio.updateBands sampleRate cfg, p.1 + 1 ≤ p.2 := by
  constructor
  · unfold audio.updateBands
    rw [List.length_map, List.length_range]
  · intro p hp
    unfold audio.updateBands at hp
    simp only [List.mem_map, List.mem_range] at hp
    obtain ⟨i, -, hpe⟩ := hp
    subst hpe
    dsimp only
    split_ifs <;> omega

/-- Witness for C8 at the default configuration (fftSize 4096, 128 log
bands, 20 Hz to 20 kHz, sample rate 44100). -/
theorem bands_never_empty_witness :
    (audio.updateBands 44100 (audio.AnalyzerConfig.mk 4096 128 20 20000 true)).length =
        128 ∧
      ∀ p ∈ audio.updateBands 44100 (audio.AnalyzerConfig.mk 4096 128 20 20000 true),
        p.1 + 1 ≤ p.2 :=
  bands_never_empty 44100 (audio.AnalyzerConfig.mk 4096 128 20 20000 true)
    (by norm_num)

lemma binScan_fold_peak (mags : List ℚ) (s : ℕ) (c : ℕ) (acc : ℚ × ℚ × ℕ) :
    acc.2.1 ≤ ((List.range c).foldl (audio.binScanStep mags s) acc).2.1 ∧
      (((List.range c).foldl (audio.binScanStep mags s) acc).2.1 = acc.2.1 ∧
          ((List.range c).foldl (audio.binScanStep mags s) acc).2.2 = acc.2.2 ∨
        ∃ b, s ≤ b ∧ b < s + c ∧
          ((List.range c).foldl (audio.binScanStep mags s) acc).2.1 = audio.magAt mags b ∧
          ((List.range c).foldl (audio.binScanStep mags s) acc).2.2 = b) ∧
      ∀ b, s ≤ b → b < s + c →
        audio.magAt mags b ≤ ((List.range c).foldl (audio.binScanStep mags s) acc).2.1 := by
  induction c with
  | zero =>
    exact ⟨le_refl _, Or.inl ⟨rfl, rfl⟩, fun b h1 h2 => absurd h2 (by omega)⟩
  | succ c ih =>
    have hrw : (List.range (c + 1)).foldl (audio.binScanStep mags s) acc =
        audio.binScanStep mags s ((List.range c).foldl (audio.binScanStep mags s) acc) c := by
      rw [List.range_succ, List.foldl_append, List.foldl_cons, List.foldl_nil]
    rw [hrw]
    obtain ⟨ihmono, ihorig, ihbound⟩ := ih
    set R := (List.range c).foldl (audio.binScanStep mags s) acc with hR
    by_cases hcmp : R.2.1 < audio.magAt mags (s + c)
    · have h2 : (audio.binScanStep mags s R c).2 = (audio.magAt mags (s + c), s + c) := by
        simp only [audio.binScanStep]
        rw [if_pos hcmp]
      have h21 : (audio.binScanStep mags s R c).2.1 = audio.magAt mags (s + c) := by
        rw [h2]
      have h22 : (audio.binScanStep mags s R c).2.2 = s + c := by rw [h2]
      refine ⟨?_, ?_, ?_⟩
      · rw [h21]
        exact le_trans ihmono (le_of_lt hcmp)
      · exact Or.inr ⟨s + c, by omega, by omega, h21, h22⟩
      · intro b hb1 hb2
        rw [h21]
        rcases Nat.lt_succ_iff_lt_or_eq.mp (by omega : b < (s + c) + 1) with hlt | heq
        · exact le_trans (ihbound b hb1 (by omega)) (le_of_lt hcmp)
        · rw [heq]
    · have h2 : (audio.binScanStep mags s R c).2 = (R.2.1, R.2.2) := by
        simp only [audio.binScanStep]
        rw [if_neg hcmp]
      have h21 : (audio.binScanStep mags s R c).2.1 = R.2.1 := by rw [h2]
      have h22 : (audio.binScanStep mags s R c).2.2 = R.2.2 := by rw [h2]
      refine ⟨?_, ?_, ?_⟩
      · rw [h21]
        exact ihmono
      · rcases ihorig with ⟨e1, e2⟩ | ⟨b, hb1, hb2, hb3, hb4⟩
        · exact Or.inl ⟨by rw [h21, e1], by rw [h22, e2]⟩
        · exact Or.inr ⟨b, hb1, by omega, by rw [h21, hb3], by rw [h22, hb4]⟩
      · intro b hb1 hb2
        rw [h21]
        rcases Nat.lt_succ_iff_lt_or_eq.mp (by omega : b < (s + c) + 1) with hlt | heq
        · exact ihbound b hb1 (by omega)
        · rw [heq]
          exact not_lt.mp hcmp

lemma binScan_peak (mags : List ℚ) (s e : ℕ) (acc : ℚ × ℚ × ℕ) :
    acc.2.1 ≤ (audio.binScan mags s e acc).2.1 ∧
      ((audio.binScan mags s e acc).2.1 = acc.2.1 ∧
          (audio.binScan mags s e acc).2.2 = acc.2.2 ∨
        ∃ b, s ≤ b ∧ b ≤ e ∧
          (audio.binScan mags s e acc).2.1 = audio.magAt mags b ∧
          (audio.binScan mags s e acc).2.2 = b) ∧
      ∀ b, s ≤ b → b ≤ e → audio.magAt mags b ≤ (audio.binScan mags s e acc).2.1 := by
  obtain ⟨hmono, horig, hbound⟩ := binScan_fold_peak mags s (e + 1 - s) acc
  have he : audio.binScan mags s e acc =
      (List.range (e + 1 - s)).foldl (audio.binScanStep mags s) acc := rfl
  rw [he]
  refine ⟨hmono, ?_, ?_⟩
  · rcases horig with h | ⟨b, hb1, hb2, hb3, hb4⟩
    · exact Or.inl h
    · exact Or.inr ⟨b, hb1, by omega, hb3, hb4⟩
  · intro b hb1 hb2
    exact hbound b hb1 (by omega)

lemma bandFold_peak (mags : List ℚ) (half : ℕ) (bins : List (ℕ × ℕ)) :
    ∀ acc : ℚ × ℕ,
      acc.1 ≤ (bins.foldl (audio.bandScanStep mags half) acc).1 ∧
        ((bins.foldl (audio.bandScanStep mags half) acc).1 = acc.1 ∧
            (bins.foldl (audio.bandScanStep mags half) acc).2 = acc.2 ∨
          ∃ b, (bins.foldl (audio.bandScanStep mags half) acc).1 = audio.magAt mags b ∧
            (bins.foldl (audio.bandScanStep mags half) acc).2 = b) ∧
        ∀ se ∈ bins, se.1 < half → ∀ b, se.1 ≤ b → b ≤ min se.2 (half - 1) →
          audio.magAt mags b ≤ (bins.foldl (audio.bandScanStep mags half) acc).1 := by
  induction bins with
  | nil =>
    intro acc
    exact ⟨le_refl _, Or.inl ⟨rfl, rfl⟩, fun se hse => absurd hse (List.not_mem_nil se)⟩
  | cons p bins ih =>
    intro acc
    rw [List.foldl_cons]
    by_cases hp : half ≤ p.1
    · have ha : audio.bandScanStep mags half acc p = acc := by
        unfold audio.bandScanStep
        rw [if_pos hp]
      rw [ha]
      obtain ⟨m1, o1, b1⟩ := ih acc
      refine ⟨m1, o1, ?_⟩
      intro se hse hse2
      rcases List.mem_cons.mp hse with hse1 | hse1
      · exfalso
        rw [hse1] at hse2
        omega
      · exact b1 se hse1 hse2
    · obtain ⟨m1, o1, b1⟩ := ih (audio.bandScanStep mags half acc p)
      have ha : audio.bandScanStep mags half acc p =
          ((audio.binScan mags p.1 (min p.2 (half - 1)) (0, acc.1, acc.2)).2.1,
            (audio.binScan mags p.1 (min p.2 (half - 1)) (0, acc.1, acc.2)).2.2) := by
        unfold audio.bandScanStep
        rw [if_neg hp]
      obtain ⟨sm, so, sb⟩ := binScan_peak mags p.1 (min p.2 (half - 1)) (0, acc.1, acc.2)
      have hstep1 : acc.1 ≤ (audio.bandScanStep mags half acc p).1 := by
        rw [ha]
        exact sm
      refine ⟨le_trans hstep1 m1, ?_, ?_⟩
      · rcases o1 with ⟨e1, e2⟩ | h
        · rcases so with ⟨f1, f2⟩ | ⟨b, hb1, hb2, hb3, hb4⟩
          · refine Or.inl ⟨?_, ?_⟩
            · rw [e1, ha]
              exact f1
            · rw [e2, ha]
              exact f2
          · refine Or.inr ⟨b, ?_, ?_⟩
            · rw [e1, ha]
              exact hb3
            · rw [e2, ha]
              exact hb4
        · exact Or.inr h
      · intro se hse hse2 b hb1 hb2
        rcases List.mem_cons.mp hse with hse1 | hse1
        · subst hse1
          refine le_trans ?_ m1
          rw [ha]
          exact sb b hb1 hb2
        · exact b1 se hse1 hse2 b hb1 hb2

/-- C9 (amended): the reported peak frequency is
`peakBin * (sampleRate / fftSize)`, where `peakBin` attains the largest
unsmoothed magnitude over the bins the band loop actually scans (each
band bin range clamped to the positive-frequency half; bands starting at or
beyond the half, and bins covered by no band, are not considered); the
tracked maximum is the magnitude at `peakBin` unless no scanned bin beat
the initial `(0, 0)` accumulator. -/
theorem peak_over_scanned_bins (mags : List ℚ) (bins : List (ℕ × ℕ)) (sr fs : ℕ) :
    (∀ se ∈ bins, se.1 < fs / 2 → ∀ b, se.1 ≤ b → b ≤ min se.2 (fs / 2 - 1) →
        audio.magAt mags b ≤ (audio.computePeakScan mags bins (fs / 2)).1) ∧
      ((audio.computePeakScan mags bins (fs / 2)).1 =
          audio.magAt mags (audio.computePeakScan mags bins (fs / 2)).2 ∨
        audio.computePeakScan mags bins (fs / 2) = (0, 0)) ∧
      audio.peakFrequencyOf sr fs mags bins =
        ((audio.computePeakScan mags bins (fs / 2)).2 : ℚ) * ((sr : ℚ) / (fs : ℚ)) := by
  obtain ⟨-, horig, hbound⟩ := bandFold_peak mags (fs / 2) bins (0, 0)
  have hc : audio.computePeakScan mags bins (fs / 2) =
      bins.foldl (audio.bandScanStep mags (fs / 2)) (0, 0) := rfl
  refine ⟨?_, ?_, rfl⟩
  · rw [hc]
    exact hbound
  · rcases horig with ⟨e1, e2⟩ | ⟨b, hb1, hb2⟩
    · right
      rw [hc]
      exact Prod.ext e1 e2
    · left
      rw [hc, hb1, hb2]

/-- Counterexample to C9 as stated: with the band table `updateBands`
produces for the reachable configuration (sampleRate 8, fftSize 8, two
linear bands over 2..4 Hz) the bins actually scanned are 2 and 3 only; on a
magnitude array whose global maximum of the positive-frequency half sits at
the unscanned bin 0 (e.g. a signal with a dominant DC component), the code
reports peak bin 3 — not the bin with the largest magnitude across the
whole half — and hence frequency 3 instead of 0. -/
theorem peak_misses_uncovered_bin :
    audio.updateBands 8 (audio.AnalyzerConfig.mk 8 2 2 4 false) = [(2, 3), (3, 4)] ∧
      (audio.computePeakScan [5, 0, 1, 2, 0, 0, 0, 0] [(2, 3), (3, 4)] (8 / 2)).2 = 3 ∧
      ¬ audio.specIsGlobalPeakBin [5, 0, 1, 2, 0, 0, 0, 0] (8 / 2)
          ((audio.computePeakScan [5, 0, 1, 2, 0, 0, 0, 0] [(2, 3), (3, 4)] (8 / 2)).2) ∧
      audio.peakFrequencyOf 8 8 [5, 0, 1, 2, 0, 0, 0, 0] [(2, 3), (3, 4)] = 3 := by
  have hpb : (audio.computePeakScan [5, 0, 1, 2, 0, 0, 0, 0] [(2, 3), (3, 4)] (8 / 2)).2
      = 3 := by decide
  refine ⟨?_, hpb, ?_, ?_⟩
  · unfold audio.updateBands audio.castToSize
    norm_num [List.range_succ]
    decide
  · rw [hpb]
    rintro ⟨-, hall⟩
    have h0 := hall 0 (by norm_num)
    norm_num [audio.magAt] at h0
  · norm_num [audio.peakFrequencyOf, hpb]

/-- Witness for the amended C9 theorem at the counterexample data: the
scanned bin 3 is bounded by the tracked maximum, and the reported frequency
is the tracked peak bin times the bin width. -/
theorem peak_over_scanned_bins_witness :
    audio.magAt [5, 0, 1, 2, 0, 0, 0, 0] 3 ≤
        (audio.computePeakScan [5, 0, 1, 2, 0, 0, 0, 0] [(2, 3), (3, 4)] (8 / 2)).1 ∧
      audio.peakFrequencyOf 8 8 [5, 0, 1, 2, 0, 0, 0, 0] [(2, 3), (3, 4)] =
        ((audio.computePeakScan [5, 0, 1, 2, 0, 0, 0, 0] [(2, 3), (3, 4)] (8 / 2)).2 : ℚ) *
          ((8 : ℚ) / (8 : ℚ)) := by
  have h := peak_over_scanned_bins [5, 0, 1, 2, 0, 0, 0, 0] [(2, 3), (3, 4)] 8 8
  exact ⟨h.1 (2, 3) (by simp) (by decide) 3 (by decide) (by decide), h.2.2⟩

lemma or_shift_window (m x d : ℕ)
    (hx : ∀ i, x.testBit i = true ↔ ∃ e, e < d ∧ m.testBit (i + e) = true) :
    ∀ i, (x ||| (x >>> d)).testBit i = true ↔
      ∃ e, e < 2 * d ∧ m.testBit (i + e) = true := by
  intro i
  rw [Nat.testBit_or, Nat.testBit_shiftRight, Bool.or_eq_true, hx, hx]
  constructor
  · rintro (⟨e, he, hb⟩ | ⟨e, he, hb⟩)
    · exact ⟨e, by omega, hb⟩
    · refine ⟨d + e, by omega, ?_⟩
      have hidx : i + (d + e) = d + i + e := by omega
      rw [hidx]
      exact hb
  · rintro ⟨e, he, hb⟩
    by_cases hed : e < d
    · exact Or.inl ⟨e, hed, hb⟩
    · refine Or.inr ⟨e - d, by omega, ?_⟩
      have hidx : d + i + (e - d) = i + e := by omega
      rw [hidx]
      exact hb

lemma top_bit_set (m : ℕ) (hm : 1 ≤ m) : m.testBit (Nat.size m - 1) = true := by
  have hs1 : 1 ≤ Nat.size m := Nat.lt_size.mpr (by simpa using hm)
  have hlo : 2 ^ (Nat.size m - 1) ≤ m := Nat.lt_size.mp (by omega)
  have hhi : m < 2 ^ Nat.size m := Nat.lt_size_self m
  have hdiv : m / 2 ^ (Nat.size m - 1) = 1 := by
    have h2 : m < 2 ^ (Nat.size m - 1) * 2 := by
      have : 2 ^ (Nat.size m - 1) * 2 = 2 ^ (Nat.size m - 1 + 1) := by
        rw [pow_succ]
      rw [this]
      have : Nat.size m - 1 + 1 = Nat.size m := by omega
      rw [this]
      exact hhi
    have hge : 1 ≤ m / 2 ^ (Nat.size m - 1) :=
      (Nat.le_div_iff_mul_le (Nat.two_pow_pos _)).mpr (by omega)
    have hlt : m / 2 ^ (Nat.size m - 1) < 2 :=
      Nat.div_lt_of_lt_mul (by omega)
    omega
  rw [Nat.testBit_to_div_mod, hdiv]
  decide

lemma nextPowerOf2_pow (n : ℕ) (hn : n ≤ 2 ^ 63) :
    ∃ k, fft.nextPowerOf2 n = 2 ^ k ∧ n ≤ 2 ^ k := by
  by_cases h0 : n = 0
  · exact ⟨0, by rw [h0]; rfl, by omega⟩
  have hbase : ∀ i, (n - 1).testBit i = true ↔
      ∃ e, e < 1 ∧ (n - 1).testBit (i + e) = true := by
    intro i
    constructor
    · intro hb
      exact ⟨0, by omega, hb⟩
    · rintro ⟨e, he, hb⟩
      have he0 : e = 0 := by omega
      rw [he0] at hb
      simpa using hb
  have w1 := or_shift_window (n - 1) (n - 1) 1 hbase
  have w2 := or_shift_window (n - 1) _ 2 w1
  have w4 := or_shift_window (n - 1) _ 4 w2
  have w8 := or_shift_window (n - 1) _ 8 w4
  have w16 := or_shift_window (n - 1) _ 16 w8
  have w32 := or_shift_window (n - 1) _ 32 w16
  by_cases h1 : n = 1
  · exact ⟨0, by rw [h1]; rfl, by omega⟩
  have hm1 : 1 ≤ n - 1 := by omega
  have hm64 : n - 1 < 2 ^ 64 := by
    have h63 : (2 : ℕ) ^ 63 < 2 ^ 64 := by norm_num
    omega
  have hs64 : Nat.size (n - 1) ≤ 64 := Nat.size_le.mpr hm64
  have hs1 : 1 ≤ Nat.size (n - 1) := Nat.lt_size.mpr (by simpa using hm1)
  have hsmear : (let m1 := n - 1
      let m2 := m1 ||| (m1 >>> 1)
      let m3 := m2 ||| (m2 >>> 2)
      let m4 := m3 ||| (m3 >>> 4)
      let m5 := m4 ||| (m4 >>> 8)
      let m6 := m5 ||| (m5 >>> 16)
      m6 ||| (m6 >>> 32)) = 2 ^ Nat.size (n - 1) - 1 := by
    dsimp only
    refine Nat.eq_of_testBit_eq fun i => ?_
    rw [Nat.testBit_two_pow_sub_one]
    by_cases hi : i < Nat.size (n - 1)
    · rw [decide_eq_true hi]
      refine (w32 i).mpr ⟨Nat.size (n - 1) - 1 - i, by omega, ?_⟩
      have hidx : i + (Nat.size (n - 1) - 1 - i) = Nat.size (n - 1) - 1 := by omega
      rw [hidx]
      exact top_bit_set (n - 1) hm1
    · rw [decide_eq_false hi, ← Bool.not_eq_true]
      intro hb
      obtain ⟨e, -, hbe⟩ := (w32 i).mp hb
      have hge : Nat.size (n - 1) ≤ i + e := by omega
      have hf : (n - 1).testBit (i + e) = false :=
        Nat.testBit_lt_two_pow (lt_of_lt_of_le (Nat.lt_size_self (n - 1))
          (Nat.pow_le_pow_right (by omega) hge))
      rw [hf] at hbe
      exact Bool.false_ne_true hbe
  refine ⟨Nat.size (n - 1), ?_, ?_⟩
  · show fft.nextPowerOf2 n = 2 ^ Nat.size (n - 1)
    unfold fft.nextPowerOf2
    rw [if_neg h0]
    dsimp only
    dsimp only at hsmear
    rw [hsmear]
    have h2pos : 1 ≤ 2 ^ Nat.size (n - 1) := Nat.one_le_two_pow
    omega
  · have : n - 1 < 2 ^ Nat.size (n - 1) := Nat.lt_size_self (n - 1)
    omega

lemma isPowerOf2_two_pow (k : ℕ) : fft.isPowerOf2 (2 ^ k) = true := by
  unfold fft.isPowerOf2
  rw [Bool.and_eq_true]
  constructor
  · exact decide_eq_true (Nat.two_pow_pos k)
  · rw [Nat.beq_eq_true_eq]
    refine Nat.eq_of_testBit_eq fun i => ?_
    rw [Nat.testBit_and, Nat.testBit_two_pow, Nat.testBit_two_pow_sub_one, Nat.zero_testBit]
    by_cases hik : k = i
    · rw [decide_eq_true hik, decide_eq_false (by omega)]
      rfl
    · rw [decide_eq_false hik]
      rfl

/-- C7: `transform` never rejects a (physically realizable) input: it
zero-pads to `nextPowerOf2` of the input length, which is a power of two at
least the input length, so the power-of-two failure branch of
`transformInPlace` is unreachable from `transform`, and the output length
is `nextPowerOf2(input length)`. -/
theorem transform_never_rejects (signal : List ℝ) (hlen : signal.length ≤ 2 ^ 63) :
    (∃ A, fft.transform signal = some (fft.nextPowerOf2 signal.length, A)) ∧
      (∃ k, fft.nextPowerOf2 signal.length = 2 ^ k) ∧
      signal.length ≤ fft.nextPowerOf2 signal.length := by
  obtain ⟨k, hk, hle⟩ := nextPowerOf2_pow signal.length hlen
  have hpow : fft.isPowerOf2 (fft.nextPowerOf2 signal.length) = true := by
    rw [hk]
    exact isPowerOf2_two_pow k
  have hsome : ∃ B, fft.transformInPlace (fft.nextPowerOf2 signal.length)
      (fft.padSignal signal) = some B := by
    unfold fft.transformInPlace
    rw [hpow]
    by_cases hle1 : fft.nextPowerOf2 signal.length ≤ 1
    · rw [if_pos rfl, if_pos hle1]
      exact ⟨_, rfl⟩
    · rw [if_pos rfl, if_neg hle1]
      exact ⟨_, rfl⟩
  obtain ⟨B, hB⟩ := hsome
  refine ⟨⟨B, ?_⟩, ⟨k, hk⟩, by rw [hk]; exact hle⟩
  unfold fft.transform
  rw [hB]

/-- Witness for C7 at a length-3 signal: the transform succeeds with
output length 4. -/
theorem transform_never_rejects_witness :
    (∃ A, fft.transform [1, 2, 3] = some (fft.nextPowerOf2 3, A)) ∧
      (∃ k, fft.nextPowerOf2 3 = 2 ^ k) ∧ 3 ≤ fft.nextPowerOf2 3 := by
  have h := transform_never_rejects [1, 2, 3] (by norm_num)
  simpa using h

lemma rev_lt (m : ℕ) : ∀ i, fft.rev m i < 2 ^ m := by
  induction m with
  | zero =>
    intro i
    simp [fft.rev]
  | succ m ih =>
    intro i
    have h2 : i % 2 ≤ 1 := by omega
    have := ih (i / 2)
    calc fft.rev (m + 1) i = 2 ^ m * (i % 2) + fft.rev m (i / 2) := rfl
      _ < 2 ^ m * 1 + 2 ^ m := by
          have hmul : 2 ^ m * (i % 2) ≤ 2 ^ m * 1 := Nat.mul_le_mul_left _ h2
          omega
      _ ≤ 2 ^ (m + 1) := by
          rw [pow_succ]
          omega

lemma rev_zero (m : ℕ) : fft.rev m 0 = 0 := by
  induction m with
  | zero => rfl
  | succ m ih =>
    show 2 ^ m * (0 % 2) + fft.rev m (0 / 2) = 0
    simpa using ih

lemma rev_two_mul (m i : ℕ) : fft.rev (m + 1) (2 * i) = fft.rev m i := by
  show 2 ^ m * (2 * i % 2) + fft.rev m (2 * i / 2) = fft.rev m i
  rw [Nat.mul_mod_right, Nat.mul_div_cancel_left i (by omega : 0 < 2)]
  omega

lemma rev_two_mul_add_one (m i : ℕ) :
    fft.rev (m + 1) (2 * i + 1) = 2 ^ m + fft.rev m i := by
  show 2 ^ m * ((2 * i + 1) % 2) + fft.rev m ((2 * i + 1) / 2) = 2 ^ m + fft.rev m i
  rw [Nat.mul_add_mod 2 i 1, Nat.mul_add_div (by omega : 0 < 2)]
  norm_num

lemma rev_high (m : ℕ) : ∀ r b, r < 2 ^ m → b ≤ 1 →
    fft.rev (m + 1) (2 ^ m * b + r) = 2 * fft.rev m r + b := by
  induction m with
  | zero =>
    intro r b hr hb
    interval_cases r
    show 2 ^ 0 * ((2 ^ 0 * b + 0) % 2) + fft.rev 0 ((2 ^ 0 * b + 0) / 2) = 2 * fft.rev 0 0 + b
    simp [fft.rev, rev_zero]
    omega
  | succ m ih =>
    intro r b hr hb
    have hpow : 2 ^ (m + 1) = 2 * 2 ^ m := by rw [pow_succ]; ring
    have hpowb : 2 ^ (m + 1) * b = 2 * (2 ^ m * b) := by rw [hpow]; ring
    have hx : 2 ^ (m + 1) * b + r = 2 * (2 ^ m * b + r / 2) + r % 2 := by omega
    have hmod : (2 ^ (m + 1) * b + r) % 2 = r % 2 := by omega
    have hdiv : (2 ^ (m + 1) * b + r) / 2 = 2 ^ m * b + r / 2 := by omega
    show 2 ^ (m + 1) * ((2 ^ (m + 1) * b + r) % 2) +
        fft.rev (m + 1) ((2 ^ (m + 1) * b + r) / 2) = 2 * fft.rev (m + 1) r + b
    rw [hmod, hdiv, ih (r / 2) b (by omega) hb]
    have hrev : fft.rev (m + 1) r = 2 ^ m * (r % 2) + fft.rev m (r / 2) := rfl
    rw [hrev]
    have hpowm : 2 ^ (m + 1) * (r % 2) = 2 * (2 ^ m * (r % 2)) := by rw [hpow]; ring
    omega

lemma rev_rev (m : ℕ) : ∀ i, i < 2 ^ m → fft.rev m (fft.rev m i) = i := by
  induction m with
  | zero =>
    intro i hi
    interval_cases i
    rfl
  | succ m ih =>
    intro i hi
    have hpow : 2 ^ (m + 1) = 2 * 2 ^ m := by rw [pow_succ]; ring
    have hi2 : i / 2 < 2 ^ m := by omega
    have hsplit : i = 2 * (i / 2) + i % 2 := by omega
    have hrev1 : fft.rev (m + 1) i = 2 ^ m * (i % 2) + fft.rev m (i / 2) := rfl
    rw [hrev1, rev_high m (fft.rev m (i / 2)) (i % 2) (rev_lt m (i / 2)) (by omega),
      ih (i / 2) hi2]
    omega

lemma bitrevStep_rev (m : ℕ) : ∀ i, i + 1 < 2 ^ m →
    fft.bitrevStep (2 ^ m / 2) (fft.rev m i) = fft.rev m (i + 1) := by
  induction m with
  | zero =>
    intro i hi
    norm_num at hi
  | succ m ih =>
    intro i hi
    have hpow : 2 ^ (m + 1) = 2 * 2 ^ m := by rw [pow_succ]; ring
    have h2 : 2 ^ (m + 1) / 2 = 2 ^ m := by omega
    rw [h2]
    rcases Nat.even_or_odd i with he | ho
    · obtain ⟨q, hq⟩ := he
      have hiq : i = 2 * q := by omega
      rw [hiq]
      rw [rev_two_mul m q, rev_two_mul_add_one m q]
      have hlt : fft.rev m q < 2 ^ m := rev_lt m q
      rw [fft.bitrevStep]
      rw [if_neg (by omega)]
      omega
    · obtain ⟨q, hq⟩ := ho
      have hm1 : 1 ≤ m := by
        rcases Nat.eq_zero_or_pos m with h0 | h1
        · subst h0
          norm_num at hi
          omega
        · exact h1
      have hq1 : q + 1 < 2 ^ m := by omega
      rw [hq]
      have hgoalr : fft.rev (m + 1) (2 * q + 1 + 1) = fft.rev m (q + 1) := by
        have h21 : 2 * q + 1 + 1 = 2 * (q + 1) := by ring
        rw [h21, rev_two_mul]
      rw [hgoalr, rev_two_mul_add_one m q]
      rw [fft.bitrevStep]
      rw [if_pos (by omega : 2 ^ m ≤ 2 ^ m + fft.rev m q)]
      rw [dif_neg (by positivity : ¬(2 ^ m = 0))]
      have hsub : 2 ^ m + fft.rev m q - 2 ^ m = fft.rev m q := by omega
      rw [hsub]
      have hhalf : 2 ^ m / 2 = 2 ^ m / 2 := rfl
      exact ih q hq1

lemma swapIdx_eval (a : ℕ → ℂ) (i j p : ℕ) :
    fft.swapIdx a i j p = if p = j then a i else if p = i then a j else a p := by
  unfold fft.swapIdx
  by_cases hpj : p = j
  · rw [if_pos hpj, hpj, Function.update_same]
  · rw [if_neg hpj, Function.update_noteq hpj]
    by_cases hpi : p = i
    · rw [if_pos hpi, hpi, Function.update_same]
    · rw [if_neg hpi, Function.update_noteq hpi]

lemma bitrevLoop_inv (m : ℕ) (a : ℕ → ℂ) :
    ∀ (steps i : ℕ) (cur : ℕ → ℂ),
      i + steps = 2 ^ m - 1 →
      (∀ p, p < 2 ^ m → cur p = if min p (fft.rev m p) < i then a (fft.rev m p) else a p) →
      (∀ p, 2 ^ m ≤ p → cur p = a p) →
      (∀ p, p < 2 ^ m →
        fft.bitrevLoop (2 ^ m) steps i (fft.rev m i) cur p = a (fft.rev m p)) ∧
      (∀ p, 2 ^ m ≤ p → fft.bitrevLoop (2 ^ m) steps i (fft.rev m i) cur p = a p) := by
  intro steps
  induction steps with
  | zero =>
    intro i cur hcount hinv hout
    constructor
    · intro p hp
      show cur p = a (fft.rev m p)
      rw [hinv p hp]
      by_cases hmin : min p (fft.rev m p) < i
      · rw [if_pos hmin]
      · rw [if_neg hmin]
        have hrlt : fft.rev m p < 2 ^ m := rev_lt m p
        have hpi : p = 2 ^ m - 1 := by omega
        have hri : fft.rev m p = 2 ^ m - 1 := by omega
        rw [hri, ← hpi]
    · intro p hp
      exact hout p hp
  | succ steps ih =>
    intro i cur hcount hinv hout
    have hilt : i + 1 < 2 ^ m := by omega
    have hi2 : i < 2 ^ m := by omega
    have hrlt : fft.rev m i < 2 ^ m := rev_lt m i
    have hrr : fft.rev m (fft.rev m i) = i := rev_rev m i hi2
    have hstep : fft.bitrevLoop (2 ^ m) (steps + 1) i (fft.rev m i) cur =
        fft.bitrevLoop (2 ^ m) steps (i + 1) (fft.bitrevStep (2 ^ m / 2) (fft.rev m i))
          (if i < fft.rev m i then fft.swapIdx cur i (fft.rev m i) else cur) := rfl
    rw [hstep, bitrevStep_rev m i hilt]
    set cur' := if i < fft.rev m i then fft.swapIdx cur i (fft.rev m i) else cur with hcur'
    refine ih (i + 1) cur' (by omega) ?_ ?_
    · intro p hp
      have hrp : fft.rev m p < 2 ^ m := rev_lt m p
      have hrrp : fft.rev m (fft.rev m p) = p := rev_rev m p hp
      by_cases hsw : i < fft.rev m i
      · rw [hcur', if_pos hsw, swapIdx_eval]
        by_cases hpr : p = fft.rev m i
        · rw [if_pos hpr]
          have hrevp : fft.rev m p = i := by rw [hpr, hrr]
          have hmin : min p (fft.rev m p) = i := by
            rw [hrevp, hpr]
            omega
          rw [hmin, if_pos (by omega), hrevp]
          rw [hinv i hi2]
          rw [if_neg (by omega : ¬ min i (fft.rev m i) < i)]
        · rw [if_neg hpr]
          by_cases hpi : p = i
          · rw [if_pos hpi, hpi]
            have hmin : min i (fft.rev m i) = i := by omega
            rw [hmin, if_pos (by omega)]
            rw [hinv (fft.rev m i) hrlt]
            rw [hrr]
            rw [if_neg (by omega : ¬ min (fft.rev m i) i < i)]
          · rw [if_neg hpi]
            rw [hinv p hp]
            have hne : min p (fft.rev m p) ≠ i := by
              intro hmin
              have : p = i ∨ fft.rev m p = i := by omega
              rcases this with h1 | h1
              · exact hpi h1
              · apply hpr
                rw [← hrrp, h1]
            by_cases hlt : min p (fft.rev m p) < i
            · rw [if_pos hlt, if_pos (by omega)]
            · rw [if_neg hlt, if_neg (by omega)]
      · rw [hcur', if_neg hsw]
        have hri : fft.rev m i ≤ i := by omega
        by_cases hpi : p = i
        · rw [hpi]
          rw [hinv i hi2]
          by_cases hreq : fft.rev m i = i
          · rw [if_neg (by omega : ¬ min i (fft.rev m i) < i),
              if_pos (by omega : min i (fft.rev m i) < i + 1), hreq]
          · rw [if_pos (by omega : min i (fft.rev m i) < i),
              if_pos (by omega : min i (fft.rev m i) < i + 1)]
        · rw [hinv p hp]
          have hne : min p (fft.rev m p) ≠ i := by
            intro hmin
            have hcase : p = i ∨ fft.rev m p = i := by omega
            rcases hcase with h1 | h1
            · exact hpi h1
            · have hpr : p = fft.rev m i := by rw [← hrrp, h1]
              rcases Nat.lt_or_ge (fft.rev m i) i with hlt | hge
              · rw [hpr] at hmin
                rw [hrr] at hmin
                omega
              · have : fft.rev m i = i := by omega
                rw [hpr, this] at hpi
                exact hpi rfl
          by_cases hlt : min p (fft.rev m p) < i
          · rw [if_pos hlt, if_pos (by omega)]
          · rw [if_neg hlt, if_neg (by omega)]
    · intro p hp
      have hne1 : p ≠ fft.rev m i := by omega
      have hne2 : p ≠ i := by omega
      by_cases hsw : i < fft.rev m i
      · rw [hcur', if_pos hsw, swapIdx_eval, if_neg hne1, if_neg hne2]
        exact hout p hp
      · rw [hcur', if_neg hsw]
        exact hout p hp

lemma bitReversePermute_spec (m : ℕ) (a : ℕ → ℂ) :
    (∀ p, p < 2 ^ m → fft.bitReversePermute (2 ^ m) a p = a (fft.rev m p)) ∧
      (∀ p, 2 ^ m ≤ p → fft.bitReversePermute (2 ^ m) a p = a p) := by
  have h0 : fft.rev m 0 = 0 := rev_zero m
  have hinv : ∀ p, p < 2 ^ m →
      a p = if min p (fft.rev m p) < 0 then a (fft.rev m p) else a p := by
    intro p _
    rw [if_neg (Nat.not_lt_zero _)]
  have h := bitrevLoop_inv m a (2 ^ m - 1) 0 a (by omega) hinv (fun p _ => rfl)
  rw [h0] at h
  exact h

lemma innerLoop_spec (wlen : ℂ) (i0 half : ℕ) :
    ∀ (steps j : ℕ) (w : ℂ) (a : ℕ → ℂ), j + steps ≤ half →
      ∀ q, fft.innerLoop wlen i0 half steps j w a q =
        if i0 + j ≤ q ∧ q < i0 + j + steps then
          a q + w * wlen ^ (q - (i0 + j)) * a (q + half)
        else if i0 + half + j ≤ q ∧ q < i0 + half + j + steps then
          a (q - half) - w * wlen ^ (q - (i0 + half + j)) * a q
        else a q := by
  intro steps
  induction steps with
  | zero =>
    intro j w a hle q
    rw [if_neg (by omega), if_neg (by omega)]
    rfl
  | succ steps ih =>
    intro j w a hle q
    have hhalfpos : 0 < half := by omega
    have hjhalf : j < half := by omega
    have hunf : fft.innerLoop wlen i0 half (steps + 1) j w a =
        fft.innerLoop wlen i0 half steps (j + 1) (w * wlen)
          (Function.update (Function.update a (i0 + j) (a (i0 + j) + w * a (i0 + j + half)))
            (i0 + j + half) (a (i0 + j) - w * a (i0 + j + half))) := rfl
    rw [hunf]
    set a2 := Function.update (Function.update a (i0 + j) (a (i0 + j) + w * a (i0 + j + half)))
      (i0 + j + half) (a (i0 + j) - w * a (i0 + j + half)) with ha2def
    rw [ih (j + 1) (w * wlen) a2 (by omega) q]
    have ha1 : a2 (i0 + j) = a (i0 + j) + w * a (i0 + j + half) := by
      rw [ha2def, Function.update_noteq (by omega : i0 + j ≠ i0 + j + half),
        Function.update_same]
    have ha2 : a2 (i0 + j + half) = a (i0 + j) - w * a (i0 + j + half) := by
      rw [ha2def, Function.update_same]
    have haother : ∀ p, p ≠ i0 + j → p ≠ i0 + j + half → a2 p = a p := by
      intro p h1 h2
      rw [ha2def, Function.update_noteq h2, Function.update_noteq h1]
    by_cases hq1 : q = i0 + j
    · subst hq1
      rw [if_neg (by omega), if_neg (by omega), ha1,
        if_pos (⟨by omega, by omega⟩ : i0 + j ≤ i0 + j ∧ i0 + j < i0 + j + (steps + 1)),
        Nat.sub_self, pow_zero, mul_one]
    · by_cases hq2 : q = i0 + j + half
      · subst hq2
        rw [if_neg (by omega), if_neg (by omega), ha2,
          if_neg (by omega),
          if_pos (⟨by omega, by omega⟩ :
            i0 + half + j ≤ i0 + j + half ∧ i0 + j + half < i0 + half + j + (steps + 1))]
        have hsub : i0 + j + half - half = i0 + j := by omega
        have hexp : i0 + j + half - (i0 + half + j) = 0 := by omega
        rw [hsub, hexp, pow_zero, mul_one]
      · by_cases hr1 : i0 + (j + 1) ≤ q ∧ q < i0 + (j + 1) + steps
        · rw [if_pos hr1, haother q (by omega) (by omega),
            haother (q + half) (by omega) (by omega),
            if_pos (⟨by omega, by omega⟩ : i0 + j ≤ q ∧ q < i0 + j + (steps + 1))]
          have hexp : q - (i0 + j) = (q - (i0 + (j + 1))) + 1 := by omega
          rw [hexp, pow_succ]
          ring
        · by_cases hr2 : i0 + half + (j + 1) ≤ q ∧ q < i0 + half + (j + 1) + steps
          · rw [if_neg hr1, if_pos hr2, haother q (by omega) (by omega),
              haother (q - half) (by omega) (by omega),
              if_neg (by omega),
              if_pos (⟨by omega, by omega⟩ :
                i0 + half + j ≤ q ∧ q < i0 + half + j + (steps + 1))]
            have hexp : q - (i0 + half + j) = (q - (i0 + half + (j + 1))) + 1 := by omega
            rw [hexp, pow_succ]
            ring
          · rw [if_neg hr1, if_neg hr2, haother q hq1 hq2,
              if_neg (by omega), if_neg (by omega)]

lemma blockIter_spec (wlen : ℂ) (len n : ℕ) (hlen2 : 2 ≤ len)
    (heven : len / 2 * 2 = len) (hdvdn : len ∣ n) :
    ∀ (fuel i : ℕ) (a : ℕ → ℂ), len ∣ i → n ≤ i + fuel * len →
      ∀ q, fft.blockIter wlen len n fuel i a q =
        if i ≤ q ∧ q < n then
          (if q % len < len / 2 then a q + wlen ^ (q % len) * a (q + len / 2)
            else a (q - len / 2) - wlen ^ (q % len - len / 2) * a q)
        else a q := by
  intro fuel
  induction fuel with
  | zero =>
    intro i a hdvdi hfuel q
    rw [if_neg (by omega)]
    rfl
  | succ fuel ih =>
    intro i a hdvdi hfuel q
    have hunf : fft.blockIter wlen len n (fuel + 1) i a =
        if i < n then
          fft.blockIter wlen len n fuel (i + len)
            (fft.innerLoop wlen i (len / 2) (len / 2) 0 1 a)
        else a := rfl
    rw [hunf]
    by_cases hin : i < n
    · rw [if_pos hin]
      obtain ⟨bi, hbi⟩ := hdvdi
      obtain ⟨bn, hbn⟩ := hdvdn
      have hbilt : bi < bn := by
        by_contra hcon
        have : len * bn ≤ len * bi := Nat.mul_le_mul_left len (by omega)
        omega
      have hilen : i + len ≤ n := by
        have h1 : len * (bi + 1) ≤ len * bn := Nat.mul_le_mul_left len (by omega)
        have h2 : len * (bi + 1) = len * bi + len := by ring
        omega
      set a2 := fft.innerLoop wlen i (len / 2) (len / 2) 0 1 a with ha2def
      have hfuel2 : n ≤ i + len + fuel * len := by
        have h3 : (fuel + 1) * len = fuel * len + len := by ring
        omega
      rw [ih (i + len) a2 ⟨bi + 1, by rw [hbi]; ring⟩ hfuel2 q]
      have ha2eval : ∀ p, a2 p =
          if i ≤ p ∧ p < i + len / 2 then a p + wlen ^ (p - i) * a (p + len / 2)
          else if i + len / 2 ≤ p ∧ p < i + len then
            a (p - len / 2) - wlen ^ (p - (i + len / 2)) * a p
          else a p := by
        intro p
        have h := innerLoop_spec wlen i (len / 2) (len / 2) 0 1 a (by omega) p
        rw [ha2def, h]
        have e1 : i + 0 = i := by omega
        have e3 : i + len / 2 + 0 = i + len / 2 := by omega
        rw [e1, e3]
        have e4 : i + len / 2 + len / 2 = i + len := by omega
        rw [e4, one_mul, one_mul]
      have ha2out : ∀ p, p < i ∨ i + len ≤ p → a2 p = a p := by
        intro p hp
        rw [ha2eval p, if_neg (by omega), if_neg (by omega)]
      by_cases hq1 : q < i
      · rw [if_neg (by omega), if_neg (by omega), ha2out q (Or.inl hq1)]
      · by_cases hq2 : q < i + len
        · have hiq : i ≤ q := by omega
          have hqn : q < n := by omega
          have hmodq : q % len = q - i := by
            have h1 : q = len * bi + (q - i) := by omega
            conv_lhs => rw [h1]
            rw [Nat.mul_add_mod]
            exact Nat.mod_eq_of_lt (by omega)
          rw [if_neg (by omega), if_pos (⟨hiq, hqn⟩ : i ≤ q ∧ q < n), hmodq]
          by_cases hr : q - i < len / 2
          · rw [if_pos hr, ha2eval q, if_pos (⟨hiq, by omega⟩ : i ≤ q ∧ q < i + len / 2)]
          · rw [if_neg hr, ha2eval q,
              if_neg (by omega), if_pos (⟨by omega, hq2⟩ : i + len / 2 ≤ q ∧ q < i + len)]
            have hexp : q - i - len / 2 = q - (i + len / 2) := by omega
            rw [hexp]
        · have hq3 : i + len ≤ q := by omega
          by_cases hqn : q < n
          · rw [if_pos (⟨hq3, hqn⟩ : i + len ≤ q ∧ q < n),
              if_pos (⟨by omega, hqn⟩ : i ≤ q ∧ q < n)]
            have hdm : len * (q / len) + q % len = q := Nat.div_add_mod q len
            have hdiv : bi + 1 ≤ q / len := by
              rw [Nat.le_div_iff_mul_le (by omega : 0 < len)]
              have hmul0 : (bi + 1) * len = len * bi + len := by ring
              omega
            have hmul : len * (bi + 1) ≤ len * (q / len) := Nat.mul_le_mul_left len hdiv
            have hmul2 : len * (bi + 1) = len * bi + len := by ring
            by_cases hr : q % len < len / 2
            · rw [if_pos hr, if_pos hr, ha2out q (Or.inr hq3),
                ha2out (q + len / 2) (Or.inr (by omega))]
            · rw [if_neg hr, if_neg hr, ha2out q (Or.inr hq3),
                ha2out (q - len / 2) (Or.inr (by omega))]
          · rw [if_neg (by omega), if_neg (by omega), ha2out q (Or.inr hq3)]
    · rw [if_neg hin, if_neg (by omega)]

lemma wlen_pow (N k : ℕ) :
    fft.wlenOf N ^ k =
      Complex.exp ((((-2 * Real.pi * k / N) : ℝ) : ℂ) * Complex.I) := by
  unfold fft.wlenOf
  rw [← Complex.exp_nat_mul]
  congr 1
  push_cast
  ring

lemma wlen_pow_self (N : ℕ) (hN : 0 < N) : fft.wlenOf N ^ N = 1 := by
  rw [wlen_pow]
  have hr : (-2 * Real.pi * N / N : ℝ) = -(2 * Real.pi) := by
    have hNne : (N : ℝ) ≠ 0 := Nat.cast_ne_zero.mpr (by omega)
    field_simp
  rw [hr]
  have hz : ((-(2 * Real.pi) : ℝ) : ℂ) * Complex.I =
      ((-1 : ℤ) : ℂ) * (2 * (Real.pi : ℂ) * Complex.I) := by
    push_cast
    ring
  rw [hz, Complex.exp_int_mul_two_pi_mul_I]

lemma wlen_two_mul_sq (L x : ℕ) (hL : 0 < L) :
    fft.wlenOf (2 * L) ^ (2 * x) = fft.wlenOf L ^ x := by
  rw [wlen_pow, wlen_pow]
  congr 2
  have hLne : (L : ℝ) ≠ 0 := Nat.cast_ne_zero.mpr (by omega)
  push_cast
  field_simp
  ring

lemma wlen_two_mul_L (L : ℕ) (hL : 0 < L) : fft.wlenOf (2 * L) ^ L = -1 := by
  rw [wlen_pow]
  have hLne : (L : ℝ) ≠ 0 := Nat.cast_ne_zero.mpr (by omega)
  have hr : (-2 * Real.pi * L / (2 * L : ℕ) : ℝ) = -Real.pi := by
    push_cast
    field_simp
    ring
  rw [hr]
  have hz : ((-Real.pi : ℝ) : ℂ) * Complex.I = -((Real.pi : ℂ) * Complex.I) := by
    push_cast
    ring
  rw [hz, Complex.exp_neg, Complex.exp_pi_mul_I]
  norm_num

lemma sum_range_two_mul (L : ℕ) (g : ℕ → ℂ) :
    ∑ v ∈ Finset.range (2 * L), g v =
      (∑ u ∈ Finset.range L, g (2 * u)) + ∑ u ∈ Finset.range L, g (2 * u + 1) := by
  induction L with
  | zero => simp
  | succ L ih =>
    have h1 : 2 * (L + 1) = 2 * L + 1 + 1 := by ring
    have e1 : ∑ v ∈ Finset.range (2 * (L + 1)), g v =
        (∑ v ∈ Finset.range (2 * L), g v) + g (2 * L) + g (2 * L + 1) := by
      rw [h1, Finset.sum_range_succ, Finset.sum_range_succ]
    have e2 : ∑ u ∈ Finset.range (L + 1), g (2 * u) =
        (∑ u ∈ Finset.range L, g (2 * u)) + g (2 * L) :=
      Finset.sum_range_succ _ L
    have e3 : ∑ u ∈ Finset.range (L + 1), g (2 * u + 1) =
        (∑ u ∈ Finset.range L, g (2 * u + 1)) + g (2 * L + 1) :=
      Finset.sum_range_succ _ L
    rw [e1, e2, e3, ih]
    ring

lemma dft_halve_lo (L : ℕ) (hL : 0 < L) (z : ℕ → ℂ) (t : ℕ) :
    fft.dftFn (2 * L) z t =
      fft.dftFn L (fun u => z (2 * u)) t +
        fft.wlenOf (2 * L) ^ t * fft.dftFn L (fun u => z (2 * u + 1)) t := by
  unfold fft.dftFn
  rw [sum_range_two_mul L (fun v => z v * fft.wlenOf (2 * L) ^ (v * t)), Finset.mul_sum]
  congr 1
  · refine Finset.sum_congr rfl fun u _ => ?_
    have he : 2 * u * t = 2 * (u * t) := by ring
    rw [he, wlen_two_mul_sq L (u * t) hL]
  · refine Finset.sum_congr rfl fun u _ => ?_
    have he : (2 * u + 1) * t = 2 * (u * t) + t := by ring
    rw [he, pow_add, wlen_two_mul_sq L (u * t) hL]
    ring

lemma dft_halve_hi (L : ℕ) (hL : 0 < L) (z : ℕ → ℂ) (t : ℕ) :
    fft.dftFn (2 * L) z (t + L) =
      fft.dftFn L (fun u => z (2 * u)) t -
        fft.wlenOf (2 * L) ^ t * fft.dftFn L (fun u => z (2 * u + 1)) t := by
  unfold fft.dftFn
  rw [sum_range_two_mul L (fun v => z v * fft.wlenOf (2 * L) ^ (v * (t + L)))]
  have heven : ∀ u ∈ Finset.range L,
      z (2 * u) * fft.wlenOf (2 * L) ^ (2 * u * (t + L)) =
        z (2 * u) * fft.wlenOf L ^ (u * t) := by
    intro u _
    rw [show 2 * u * (t + L) = 2 * (u * t) + 2 * (u * L) from by ring, pow_add,
      wlen_two_mul_sq L (u * t) hL, wlen_two_mul_sq L (u * L) hL,
      show u * L = L * u from by ring,
      show fft.wlenOf L ^ (L * u) = (fft.wlenOf L ^ L) ^ u from pow_mul _ L u,
      wlen_pow_self L hL, one_pow, mul_one]
  have hodd : ∀ u ∈ Finset.range L,
      z (2 * u + 1) * fft.wlenOf (2 * L) ^ ((2 * u + 1) * (t + L)) =
        -(fft.wlenOf (2 * L) ^ t * (z (2 * u + 1) * fft.wlenOf L ^ (u * t))) := by
    intro u _
    rw [show (2 * u + 1) * (t + L) = 2 * (u * t) + 2 * (u * L) + t + L from by ring,
      pow_add, pow_add, pow_add, wlen_two_mul_sq L (u * t) hL,
      wlen_two_mul_sq L (u * L) hL, show u * L = L * u from by ring,
      show fft.wlenOf L ^ (L * u) = (fft.wlenOf L ^ L) ^ u from pow_mul _ L u,
      wlen_pow_self L hL, one_pow, wlen_two_mul_L L hL]
    ring
  rw [Finset.sum_congr rfl heven, Finset.sum_congr rfl hodd, Finset.sum_neg_distrib,
    ← Finset.mul_sum]
  ring

lemma stage_step (m : ℕ) (x : ℕ → ℂ) (s : ℕ) (hs : s < m) (a : ℕ → ℂ)
    (hP : ∀ b, b < 2 ^ (m - s) → ∀ t, t < 2 ^ s →
      a (b * 2 ^ s + t) =
        fft.dftFn (2 ^ s) (fun u => x (u * 2 ^ (m - s) + fft.rev (m - s) b)) t) :
    ∀ b, b < 2 ^ (m - (s + 1)) → ∀ t, t < 2 ^ (s + 1) →
      fft.blockIter (fft.wlenOf (2 ^ (s + 1))) (2 ^ (s + 1)) (2 ^ m) (2 ^ m) 0 a
          (b * 2 ^ (s + 1) + t) =
        fft.dftFn (2 ^ (s + 1))
          (fun u => x (u * 2 ^ (m - (s + 1)) + fft.rev (m - (s + 1)) b)) t := by
  intro b hb t ht
  have hL : 0 < 2 ^ s := Nat.two_pow_pos s
  have hlen : (2 : ℕ) ^ (s + 1) = 2 * 2 ^ s := by rw [pow_succ]; ring
  have hms : m - s = (m - (s + 1)) + 1 := by omega
  have hms2 : (2 : ℕ) ^ (m - s) = 2 * 2 ^ (m - (s + 1)) := by rw [hms, pow_succ]; ring
  have hhalf : 2 ^ (s + 1) / 2 = 2 ^ s := by omega
  have heven : 2 ^ (s + 1) / 2 * 2 = 2 ^ (s + 1) := by omega
  have hdvd : (2 : ℕ) ^ (s + 1) ∣ 2 ^ m := pow_dvd_pow 2 (by omega)
  have hfuel : (2 : ℕ) ^ m ≤ 0 + 2 ^ m * 2 ^ (s + 1) :=
    le_trans (Nat.le_mul_of_pos_right _ (Nat.two_pow_pos (s + 1))) (by omega)
  have hq : b * 2 ^ (s + 1) + t < 2 ^ m := by
    have h1 : b * 2 ^ (s + 1) + t < (b + 1) * 2 ^ (s + 1) := by
      have : (b + 1) * 2 ^ (s + 1) = b * 2 ^ (s + 1) + 2 ^ (s + 1) := by ring
      omega
    have h2 : (b + 1) * 2 ^ (s + 1) ≤ 2 ^ (m - (s + 1)) * 2 ^ (s + 1) :=
      Nat.mul_le_mul_right _ (by omega)
    have h3 : (2 : ℕ) ^ (m - (s + 1)) * 2 ^ (s + 1) = 2 ^ m := by
      rw [← pow_add]
      congr 1
      omega
    omega
  have hmod : (b * 2 ^ (s + 1) + t) % 2 ^ (s + 1) = t := by
    rw [show b * 2 ^ (s + 1) + t = 2 ^ (s + 1) * b + t from by ring, Nat.mul_add_mod]
    exact Nat.mod_eq_of_lt ht
  rw [blockIter_spec (fft.wlenOf (2 ^ (s + 1))) (2 ^ (s + 1)) (2 ^ m) (by
      have := Nat.two_pow_pos s
      omega) heven hdvd (2 ^ m) 0 a ⟨0, by ring⟩ hfuel, if_pos ⟨by omega, hq⟩, hmod, hhalf]
  have hsubeven : (fun u => (fun v => x (v * 2 ^ (m - (s + 1)) + fft.rev (m - (s + 1)) b))
      (2 * u)) = fun u => x (u * 2 ^ (m - s) + fft.rev (m - s) (2 * b)) := by
    funext u
    rw [hms, rev_two_mul (m - (s + 1)) b]
    congr 2
    rw [← hms, hms2]
    ring
  have hsubodd : (fun u => (fun v => x (v * 2 ^ (m - (s + 1)) + fft.rev (m - (s + 1)) b))
      (2 * u + 1)) = fun u => x (u * 2 ^ (m - s) + fft.rev (m - s) (2 * b + 1)) := by
    funext u
    rw [hms, rev_two_mul_add_one (m - (s + 1)) b]
    congr 1
    rw [← hms, hms2]
    ring
  have hb0 : 2 * b < 2 ^ (m - s) := by omega
  have hb1 : 2 * b + 1 < 2 ^ (m - s) := by omega
  by_cases ht2 : t < 2 ^ s
  · rw [if_pos ht2]
    have hq1 : b * 2 ^ (s + 1) + t = (2 * b) * 2 ^ s + t := by rw [hlen]; ring
    have hq2 : (2 * b) * 2 ^ s + t + 2 ^ s = (2 * b + 1) * 2 ^ s + t := by ring
    rw [hq1, hq2, hP (2 * b) hb0 t ht2, hP (2 * b + 1) hb1 t ht2]
    have hd := dft_halve_lo (2 ^ s) hL
      (fun v => x (v * 2 ^ (m - (s + 1)) + fft.rev (m - (s + 1)) b)) t
    rw [hsubeven, hsubodd] at hd
    rw [← hlen] at hd
    rw [hd]
  · have ht' : t - 2 ^ s < 2 ^ s := by omega
    have htsplit : t = (t - 2 ^ s) + 2 ^ s := by omega
    rw [if_neg ht2]
    have hlin : b * 2 ^ (s + 1) = 2 * b * 2 ^ s := by rw [hlen]; ring
    have hq1 : b * 2 ^ (s + 1) + t - 2 ^ s = (2 * b) * 2 ^ s + (t - 2 ^ s) := by omega
    have hq2 : b * 2 ^ (s + 1) + t = (2 * b + 1) * 2 ^ s + (t - 2 ^ s) := by
      have h1 : (2 * b + 1) * 2 ^ s = 2 * b * 2 ^ s + 2 ^ s := by ring
      omega
    rw [hq1, hq2, hP (2 * b) hb0 (t - 2 ^ s) ht', hP (2 * b + 1) hb1 (t - 2 ^ s) ht']
    have hd := dft_halve_hi (2 ^ s) hL
      (fun v => x (v * 2 ^ (m - (s + 1)) + fft.rev (m - (s + 1)) b)) (t - 2 ^ s)
    rw [hsubeven, hsubodd] at hd
    rw [← hlen] at hd
    rw [← htsplit] at hd
    rw [hd]

lemma stageIter_run (m : ℕ) (x : ℕ → ℂ) :
    ∀ fuel s (a : ℕ → ℂ), s ≤ m → m - s ≤ fuel →
      (∀ b, b < 2 ^ (m - s) → ∀ t, t < 2 ^ s →
        a (b * 2 ^ s + t) =
          fft.dftFn (2 ^ s) (fun u => x (u * 2 ^ (m - s) + fft.rev (m - s) b)) t) →
      ∀ t, t < 2 ^ m → fft.stageIter (2 ^ m) fuel (2 ^ (s + 1)) a t =
        fft.dftFn (2 ^ m) x t := by
  have hbase : ∀ s (a : ℕ → ℂ), s = m →
      (∀ b, b < 2 ^ (m - s) → ∀ t, t < 2 ^ s →
        a (b * 2 ^ s + t) =
          fft.dftFn (2 ^ s) (fun u => x (u * 2 ^ (m - s) + fft.rev (m - s) b)) t) →
      ∀ t, t < 2 ^ m → a t = fft.dftFn (2 ^ m) x t := by
    intro s a hs hP t ht
    subst hs
    have h := hP 0 (by simp [Nat.sub_self]) t ht
    rw [show (0 : ℕ) * 2 ^ s + t = t from by ring] at h
    rw [h]
    congr 1
    funext u
    simp [Nat.sub_self, fft.rev]
  intro fuel
  induction fuel with
  | zero =>
    intro s a hsm hfuel hP t ht
    have hs : s = m := by omega
    exact hbase s a hs hP t ht
  | succ fuel ih =>
    intro s a hsm hfuel hP t ht
    by_cases hlt : s < m
    · have hcond : (2 : ℕ) ^ (s + 1) ≤ 2 ^ m := Nat.pow_le_pow_right (by norm_num) (by omega)
      simp only [fft.stageIter, if_pos hcond]
      rw [show (2 : ℕ) ^ (s + 1) * 2 = 2 ^ (s + 1 + 1) from (pow_succ 2 (s + 1)).symm]
      exact ih (s + 1) _ (by omega) (by omega) (stage_step m x s hlt a hP) t ht
    · have hs : s = m := by omega
      subst hs
      have hcond : ¬ (2 : ℕ) ^ (s + 1) ≤ 2 ^ s := by
        have := Nat.two_pow_pos s
        rw [pow_succ]
        omega
      simp only [fft.stageIter, if_neg hcond]
      exact hbase s a rfl hP t ht

lemma transformInPlace_dft (m : ℕ) (y : ℕ → ℂ) :
    ∃ Z, fft.transformInPlace (2 ^ m) y = some Z ∧
      ∀ q, q < 2 ^ m → Z q = fft.dftFn (2 ^ m) y q := by
  cases m with
  | zero =>
    refine ⟨y, by unfold fft.transformInPlace; rw [isPowerOf2_two_pow]; rfl, ?_⟩
    intro q hq
    interval_cases q
    simp [fft.dftFn]
  | succ m =>
    have h2 : ¬ (2 : ℕ) ^ (m + 1) ≤ 1 := by
      have := Nat.two_pow_pos m
      rw [pow_succ]
      omega
    refine ⟨fft.stageIter (2 ^ (m + 1)) (2 ^ (m + 1)) 2
      (fft.bitReversePermute (2 ^ (m + 1)) y), ?_, ?_⟩
    · unfold fft.transformInPlace
      rw [isPowerOf2_two_pow, if_neg h2]
      rfl
    · intro q hq
      have hP0 : ∀ b, b < 2 ^ (m + 1 - 0) → ∀ t, t < 2 ^ 0 →
          fft.bitReversePermute (2 ^ (m + 1)) y (b * 2 ^ 0 + t) =
            fft.dftFn (2 ^ 0)
              (fun u => y (u * 2 ^ (m + 1 - 0) + fft.rev (m + 1 - 0) b)) t := by
        intro b hb t ht
        have ht0 : t = 0 := by omega
        subst ht0
        rw [show b * 2 ^ 0 + 0 = b from by ring,
          (bitReversePermute_spec (m + 1) y).1 b (by simpa using hb)]
        simp [fft.dftFn]
      have := stageIter_run (m + 1) y (2 ^ (m + 1)) 0
        (fft.bitReversePermute (2 ^ (m + 1)) y) (by omega)
        (le_of_lt (by simpa using Nat.lt_two_pow (m + 1))) hP0 q hq
      simpa using this

lemma wlen_conj_exp (N : ℕ) :
    (starRingEnd ℂ) (fft.wlenOf N) =
      Complex.exp (2 * (Real.pi : ℂ) * Complex.I / (N : ℂ)) := by
  unfold fft.wlenOf
  rw [← Complex.exp_conj]
  congr 1
  rw [map_mul, Complex.conj_I, Complex.conj_ofReal]
  push_cast
  ring

lemma wlen_inv_exp (N : ℕ) :
    fft.wlenOf N = (Complex.exp (2 * (Real.pi : ℂ) * Complex.I / (N : ℂ)))⁻¹ := by
  unfold fft.wlenOf
  rw [← Complex.exp_neg]
  congr 1
  push_cast
  ring

lemma zeta_zpow (N v k : ℕ) :
    (starRingEnd ℂ) (fft.wlenOf N ^ v) * fft.wlenOf N ^ k =
      Complex.exp (2 * (Real.pi : ℂ) * Complex.I / (N : ℂ)) ^ ((v : ℤ) - (k : ℤ)) := by
  have hne : Complex.exp (2 * (Real.pi : ℂ) * Complex.I / (N : ℂ)) ≠ 0 :=
    Complex.exp_ne_zero _
  rw [map_pow, wlen_conj_exp, wlen_inv_exp, inv_pow,
    ← zpow_natCast (Complex.exp (2 * (Real.pi : ℂ) * Complex.I / (N : ℂ))) v,
    ← zpow_natCast (Complex.exp (2 * (Real.pi : ℂ) * Complex.I / (N : ℂ))) k,
    ← zpow_neg, ← zpow_add₀ hne, ← sub_eq_add_neg]

lemma dft_orthogonality (N : ℕ) (hN : 0 < N) (v k : ℕ) (hv : v < N) (hk : k < N) :
    ∑ u ∈ Finset.range N,
        ((starRingEnd ℂ) (fft.wlenOf N ^ v) * fft.wlenOf N ^ k) ^ u =
      if v = k then (N : ℂ) else 0 := by
  have hprim : IsPrimitiveRoot (Complex.exp (2 * (Real.pi : ℂ) * Complex.I / (N : ℂ))) N :=
    Complex.isPrimitiveRoot_exp N (by omega)
  rw [zeta_zpow N v k]
  by_cases hvk : v = k
  · subst hvk
    rw [sub_self, zpow_zero, if_pos rfl]
    simp
  · have hz1 : Complex.exp (2 * (Real.pi : ℂ) * Complex.I / (N : ℂ)) ^ ((v : ℤ) - (k : ℤ)) ≠ 1 := by
      intro h1
      have hdvd : (N : ℤ) ∣ ((v : ℤ) - (k : ℤ)) := (hprim.zpow_eq_one_iff_dvd _).mp h1
      obtain ⟨c, hc⟩ := hdvd
      have hNZ : (0 : ℤ) < (N : ℤ) := Int.natCast_pos.mpr hN
      rcases lt_trichotomy c 0 with hc0 | hc0 | hc0
      · have hcle : c ≤ -1 := by omega
        have : (N : ℤ) * c ≤ -(N : ℤ) := by nlinarith
        omega
      · subst hc0
        have : v = k := by omega
        exact hvk this
      · have hcge : 1 ≤ c := by omega
        have : (N : ℤ) ≤ (N : ℤ) * c := by nlinarith
        omega
    have hzN : (Complex.exp (2 * (Real.pi : ℂ) * Complex.I / (N : ℂ)) ^ ((v : ℤ) - (k : ℤ))) ^ N
        = 1 := by
      rw [← zpow_natCast (Complex.exp (2 * (Real.pi : ℂ) * Complex.I / (N : ℂ)) ^ ((v : ℤ) - (k : ℤ))) N,
        ← zpow_mul, mul_comm ((v : ℤ) - (k : ℤ)) ((N : ℕ) : ℤ), zpow_mul, zpow_natCast,
        hprim.pow_eq_one, one_zpow]
    rw [if_neg hvk, geom_sum_eq hz1 N, hzN, sub_self, zero_div]

lemma dftFn_congr (N : ℕ) (f g : ℕ → ℂ) (h : ∀ u, u < N → f u = g u) (t : ℕ) :
    fft.dftFn N f t = fft.dftFn N g t := by
  unfold fft.dftFn
  exact Finset.sum_congr rfl fun u hu => by rw [h u (Finset.mem_range.mp hu)]

lemma dft_conj_dft (N : ℕ) (hN : 0 < N) (x : ℕ → ℂ) (k : ℕ) (hk : k < N) :
    fft.dftFn N (fun u => (starRingEnd ℂ) (fft.dftFn N x u)) k =
      (N : ℂ) * (starRingEnd ℂ) (x k) := by
  unfold fft.dftFn
  have hstep : ∀ u ∈ Finset.range N,
      (starRingEnd ℂ) (∑ v ∈ Finset.range N, x v * fft.wlenOf N ^ (v * u)) *
          fft.wlenOf N ^ (u * k) =
        ∑ v ∈ Finset.range N,
          (starRingEnd ℂ) (x v) *
            ((starRingEnd ℂ) (fft.wlenOf N ^ v) * fft.wlenOf N ^ k) ^ u := by
    intro u _
    rw [map_sum, Finset.sum_mul]
    refine Finset.sum_congr rfl fun v _ => ?_
    rw [map_mul, mul_assoc]
    congr 1
    rw [pow_mul, mul_comm u k, pow_mul, map_pow, ← mul_pow]
  rw [Finset.sum_congr rfl hstep, Finset.sum_comm]
  have hinner : ∀ v ∈ Finset.range N,
      ∑ u ∈ Finset.range N,
          (starRingEnd ℂ) (x v) *
            ((starRingEnd ℂ) (fft.wlenOf N ^ v) * fft.wlenOf N ^ k) ^ u =
        if v = k then (starRingEnd ℂ) (x v) * (N : ℂ) else 0 := by
    intro v hv
    rw [← Finset.mul_sum, dft_orthogonality N hN v k (Finset.mem_range.mp hv) hk]
    by_cases hvk : v = k
    · rw [if_pos hvk, if_pos hvk]
    · rw [if_neg hvk, if_neg hvk, mul_zero]
  rw [Finset.sum_congr rfl hinner,
    Finset.sum_ite_eq' (Finset.range N) k (fun v => (starRingEnd ℂ) (x v) * (N : ℂ)),
    if_pos (Finset.mem_range.mpr hk)]
  ring

lemma ones_or_shift (c d : ℕ) : (2 ^ c - 1) ||| ((2 ^ c - 1) >>> d) = 2 ^ c - 1 := by
  refine Nat.eq_of_testBit_eq fun i => ?_
  rw [Nat.testBit_or, Nat.testBit_shiftRight, Nat.testBit_two_pow_sub_one,
    Nat.testBit_two_pow_sub_one]
  by_cases h : i < c
  · simp [h]
  · simp [h, show ¬ d + i < c by omega]

lemma nextPowerOf2_of_pow (k : ℕ) : fft.nextPowerOf2 (2 ^ k) = 2 ^ k := by
  have hpos := Nat.two_pow_pos k
  unfold fft.nextPowerOf2
  rw [if_neg (by omega)]
  simp only [ones_or_shift k]
  omega

/-- **C1.** For every real-valued signal whose length is a power of two
`N = 2^k`, `transform` succeeds with an output of the same length `N`, and
`inverse` (conjugate, forward transform, conjugate, scale by `1/N`) applied
to that spectrum succeeds and reproduces the input exactly, sample by
sample, over the exact-arithmetic embedding of the C++ pipeline. -/
theorem fft_inverse_transform (signal : List ℝ) (k : ℕ)
    (hlen : signal.length = 2 ^ k) :
    ∃ A y, fft.transform signal = some (signal.length, A) ∧
      fft.inverse signal.length A = some y ∧
      ∀ i (hi : i < signal.length), y i = ((signal.get ⟨i, hi⟩ : ℝ) : ℂ) := by
  obtain ⟨A, hA, hAval⟩ := transformInPlace_dft k (fft.padSignal signal)
  obtain ⟨W, hW, hWval⟩ := transformInPlace_dft k (fun q => (starRingEnd ℂ) (A q))
  have hNpos : 0 < 2 ^ k := Nat.two_pow_pos k
  refine ⟨A, fun q => (starRingEnd ℂ) (W q) / ((signal.length : ℕ) : ℂ), ?_, ?_, ?_⟩
  · unfold fft.transform
    rw [hlen, nextPowerOf2_of_pow, hA]
  · unfold fft.inverse
    rw [hlen, hW]
  · intro i hi
    have hi' : i < 2 ^ k := hlen ▸ hi
    have hcong : W i =
        fft.dftFn (2 ^ k)
          (fun u => (starRingEnd ℂ) (fft.dftFn (2 ^ k) (fft.padSignal signal) u)) i := by
      rw [hWval i hi']
      exact dftFn_congr (2 ^ k) _ _ (fun u hu => by rw [hAval u hu]) i
    have h2 : W i = ((2 ^ k : ℕ) : ℂ) * (starRingEnd ℂ) (fft.padSignal signal i) := by
      rw [hcong, dft_conj_dft (2 ^ k) hNpos (fft.padSignal signal) i hi']
    have hcast : ((2 ^ k : ℕ) : ℂ) = ((signal.length : ℕ) : ℂ) := by rw [hlen]
    have hne : ((signal.length : ℕ) : ℂ) ≠ 0 := by
      rw [← hcast]
      exact Nat.cast_ne_zero.mpr (by omega)
    show (starRingEnd ℂ) (W i) / ((signal.length : ℕ) : ℂ) = _
    rw [h2, map_mul, Complex.conj_conj, map_natCast, hcast,
      mul_div_cancel_left₀ _ hne]
    simp only [fft.padSignal]
    rw [dif_pos hi]

/-- Witness for **C1** at the concrete signal `[1, 2, 3, 4]` of length
`4 = 2^2`. -/
theorem fft_inverse_transform_witness :
    ∃ A y,
      fft.transform [(1 : ℝ), 2, 3, 4] =
        some (([(1 : ℝ), 2, 3, 4] : List ℝ).length, A) ∧
      fft.inverse ([(1 : ℝ), 2, 3, 4] : List ℝ).length A = some y ∧
      ∀ i (hi : i < ([(1 : ℝ), 2, 3, 4] : List ℝ).length),
        y i = ((([(1 : ℝ), 2, 3, 4] : List ℝ).get ⟨i, hi⟩ : ℝ) : ℂ) :=
  fft_inverse_transform [1, 2, 3, 4] 2 rfl
